import Mathlib

/-!
Verification of the JSON-RPC transport / correlation layer of the language
server integration (src-tauri/src/ls/): message framing (jsonrpc.rs), the
reader loop and pending-request table (mod.rs), the session supervisor
(mod.rs), platform configuration selection (jdtls.rs) and file-URI
conversion (uri.rs).

JSON values are modelled by the inductive `Json` below; numbers are modelled
as unbounded integers (the float case of serde_json numbers is out of scope),
strings as lists of characters.  Byte streams are modelled as lists of
characters, with lengths measured in UTF-8 bytes where the source measures
bytes.
-/

/-- Model of serde_json's `Value`: JSON values with integer numbers.
Object members are kept as an association list in order. -/
inductive Json where
  | null : Json
  | bool (b : Bool) : Json
  | num (n : Int) : Json
  | str (s : List Char) : Json
  | arr (items : List Json) : Json
  | obj (members : List (List Char × Json)) : Json

/-- Decimal digit character for a value below ten. -/
def decDigit (k : Nat) : Char := Char.ofNat (48 + k)

/-- Decimal digit string of a natural number, most significant digit first.
Models the decimal formatting used by serde_json / `write!` for lengths. -/
def natToDigits (n : Nat) : List Char :=
  if _h : n < 10 then [decDigit n]
  else natToDigits (n / 10) ++ [decDigit (n % 10)]
termination_by n
decreasing_by exact Nat.div_lt_self (by omega) (by omega)

/-- Decimal rendering of an integer (minus sign for negatives). -/
def serInt (n : Int) : List Char :=
  if n < 0 then '-' :: natToDigits n.natAbs else natToDigits n.toNat

/-- Lower-case hexadecimal digit for a value below sixteen (as used by
serde_json when escaping control characters). -/
def hexLower (k : Nat) : Char :=
  if k < 10 then decDigit k else Char.ofNat (97 + (k - 10))

/-- Model of serde_json's string escaping for one character: quote and
backslash get a backslash escape, control characters below 0x20 get their
short escape or a \u00XX escape, everything else is emitted verbatim. -/
def escapeChar (c : Char) : List Char :=
  if c = '"' then ['\\', '"']
  else if c = '\\' then ['\\', '\\']
  else if c.toNat < 32 then
    if c = Char.ofNat 8 then ['\\', 'b']
    else if c = Char.ofNat 9 then ['\\', 't']
    else if c = Char.ofNat 10 then ['\\', 'n']
    else if c = Char.ofNat 12 then ['\\', 'f']
    else if c = Char.ofNat 13 then ['\\', 'r']
    else ['\\', 'u', '0', '0', hexLower (c.toNat / 16), hexLower (c.toNat % 16)]
  else [c]

/-- Escape every character of a string body. -/
def escString : List Char → List Char
  | [] => []
  | c :: r => escapeChar c ++ escString r

/-- A JSON string literal: quote, escaped body, quote. -/
def serStrLit (s : List Char) : List Char := '"' :: (escString s ++ ['"'])

mutual
/-- Model of serde_json's `to_string` (compact serialization, no whitespace). -/
def serV : Json → List Char
  | .null => 'n' :: ['u', 'l', 'l']
  | .bool true => 't' :: ['r', 'u', 'e']
  | .bool false => 'f' :: ['a', 'l', 's', 'e']
  | .num n => serInt n
  | .str s => serStrLit s
  | .arr [] => ['[', ']']
  | .arr (x :: xs) => '[' :: (serV x ++ serItems xs ++ [']'])
  | .obj [] => ['{', '}']
  | .obj (m :: ms) => '{' :: (serMember m ++ serMembers ms ++ ['}'])

/-- One serialized object member: "key":value. -/
def serMember : List Char × Json → List Char
  | (k, v) => serStrLit k ++ (':' :: serV v)

/-- Comma-prefixed serialization of the tail elements of an array. -/
def serItems : List Json → List Char
  | [] => []
  | x :: xs => ',' :: (serV x ++ serItems xs)

/-- Comma-prefixed serialization of the tail members of an object. -/
def serMembers : List (List Char × Json) → List Char
  | [] => []
  | m :: ms => ',' :: (serMember m ++ serMembers ms)
end

/-- Value of a hexadecimal digit character (either case), as in a JSON
\uXXXX escape. -/
def hexVal (c : Char) : Option Nat :=
  if 48 ≤ c.toNat ∧ c.toNat ≤ 57 then some (c.toNat - 48)
  else if 97 ≤ c.toNat ∧ c.toNat ≤ 102 then some (c.toNat - 97 + 10)
  else if 65 ≤ c.toNat ∧ c.toNat ≤ 70 then some (c.toNat - 65 + 10)
  else none

/-- The character denoted by a single-letter JSON escape. -/
def unescapeChar (e : Char) : Option Char :=
  if e = '"' then some '"'
  else if e = '\\' then some '\\'
  else if e = '/' then some '/'
  else if e = 'b' then some (Char.ofNat 8)
  else if e = 'f' then some (Char.ofNat 12)
  else if e = 'n' then some (Char.ofNat 10)
  else if e = 'r' then some (Char.ofNat 13)
  else if e = 't' then some (Char.ofNat 9)
  else none

/-- Parse the body of a JSON string after the opening quote, up to and
including the closing quote; returns the decoded body and the remainder. -/
def parseStrBody : List Char → Option (List Char × List Char)
  | [] => none
  | c :: r =>
    if c = '"' then some ([], r)
    else if c = '\\' then
      match r with
      | [] => none
      | 'u' :: h1 :: h2 :: h3 :: h4 :: r2 =>
        match hexVal h1, hexVal h2, hexVal h3, hexVal h4 with
        | some a, some b, some cc, some d =>
          match parseStrBody r2 with
          | some (s, rest) =>
            some (Char.ofNat (((a * 16 + b) * 16 + cc) * 16 + d) :: s, rest)
          | none => none
        | _, _, _, _ => none
      | e :: r2 =>
        match unescapeChar e with
        | some ec =>
          match parseStrBody r2 with
          | some (s, rest) => some (ec :: s, rest)
          | none => none
        | none => none
    else
      match parseStrBody r with
      | some (s, rest) => some (c :: s, rest)
      | none => none

/-- Longest prefix of decimal digit characters, with the remainder. -/
def takeDigits : List Char → List Char × List Char
  | [] => ([], [])
  | c :: r =>
    if c.isDigit then
      let p := takeDigits r
      (c :: p.1, p.2)
    else ([], c :: r)

/-- Value of a string of decimal digits, most significant first. -/
def digitsToNat (ds : List Char) : Nat :=
  ds.foldl (fun a c => a * 10 + (c.toNat - 48)) 0

/-- Parse a nonempty run of decimal digits. -/
def parseDigits (l : List Char) : Option (Nat × List Char) :=
  match takeDigits l with
  | ([], _) => none
  | (ds, rest) => some (digitsToNat ds, rest)

/-- JSON insignificant whitespace: space, tab, line feed, carriage return. -/
def isJsonWs (c : Char) : Bool :=
  c = ' ' ∨ c = Char.ofNat 9 ∨ c = Char.ofNat 10 ∨ c = Char.ofNat 13

/-- Skip leading JSON whitespace. -/
def skipWs : List Char → List Char
  | [] => []
  | c :: r => if isJsonWs c then skipWs r else c :: r

mutual
/-- Fueled recursive-descent JSON value parser (model of serde_json's
deserializer on the values `serV` can produce); the fuel only bounds the
nesting of recursive calls and is chosen large enough by `from_str`. -/
def parseV : Nat → List Char → Option (Json × List Char)
  | 0, _ => none
  | fuel + 1, input =>
    match skipWs input with
    | [] => none
    | c :: r =>
      if c = 'n' then
        match r with
        | 'u' :: 'l' :: 'l' :: r2 => some (.null, r2)
        | _ => none
      else if c = 't' then
        match r with
        | 'r' :: 'u' :: 'e' :: r2 => some (.bool true, r2)
        | _ => none
      else if c = 'f' then
        match r with
        | 'a' :: 'l' :: 's' :: 'e' :: r2 => some (.bool false, r2)
        | _ => none
      else if c = '"' then
        match parseStrBody r with
        | some (s, rest) => some (.str s, rest)
        | none => none
      else if c = '[' then
        match skipWs r with
        | [] => none
        | c2 :: r2 =>
          if c2 = ']' then some (.arr [], r2)
          else
            match parseV fuel (c2 :: r2) with
            | some (v, r3) =>
              match parseItems fuel r3 with
              | some (vs, r4) => some (.arr (v :: vs), r4)
              | none => none
            | none => none
      else if c = '{' then
        match skipWs r with
        | [] => none
        | c2 :: r2 =>
          if c2 = '}' then some (.obj [], r2)
          else
            match parseMember fuel (c2 :: r2) with
            | some (m, r3) =>
              match parseMembersTail fuel r3 with
              | some (ms, r4) => some (.obj (m :: ms), r4)
              | none => none
            | none => none
      else if c = '-' then
        match parseDigits r with
        | some (n, rest) => some (.num (-(n : Int)), rest)
        | none => none
      else if c.isDigit then
        match parseDigits (c :: r) with
        | some (n, rest) => some (.num (n : Int), rest)
        | none => none
      else none

/-- Parse the remaining elements of an array after one element: either a
closing bracket or a comma followed by a value. -/
def parseItems : Nat → List Char → Option (List Json × List Char)
  | 0, _ => none
  | fuel + 1, input =>
    match skipWs input with
    | [] => none
    | c :: r =>
      if c = ']' then some ([], r)
      else if c = ',' then
        match parseV fuel r with
        | some (v, r2) =>
          match parseItems fuel r2 with
          | some (vs, r3) => some (v :: vs, r3)
          | none => none
        | none => none
      else none

/-- Parse one object member: a string key, a colon, a value. -/
def parseMember : Nat → List Char → Option ((List Char × Json) × List Char)
  | 0, _ => none
  | fuel + 1, input =>
    match skipWs input with
    | [] => none
    | c :: r =>
      if c = '"' then
        match parseStrBody r with
        | some (k, r2) =>
          match skipWs r2 with
          | [] => none
          | c2 :: r3 =>
            if c2 = ':' then
              match parseV fuel r3 with
              | some (v, r4) => some ((k, v), r4)
              | none => none
            else none
        | none => none
      else none

/-- Parse the remaining members of an object after one member: either a
closing brace or a comma followed by a member. -/
def parseMembersTail : Nat → List Char → Option (List (List Char × Json) × List Char)
  | 0, _ => none
  | fuel + 1, input =>
    match skipWs input with
    | [] => none
    | c :: r =>
      if c = '}' then some ([], r)
      else if c = ',' then
        match parseMember fuel r with
        | some (m, r2) =>
          match parseMembersTail fuel r2 with
          | some (ms, r3) => some (m :: ms, r3)
          | none => none
        | none => none
      else none
end

/-- Model of serde_json's `from_str`: parse one JSON value and require that
only whitespace remains. -/
def from_str (l : List Char) : Option Json :=
  match parseV (l.length + 1) l with
  | some (v, rest) => if skipWs rest = [] then some v else none
  | none => none

/-- UTF-8 byte length of a character list (source code measures `body.len()`
on the UTF-8 string). -/
def utf8Len : List Char → Nat
  | [] => 0
  | c :: r => c.utf8Size + utf8Len r

/-- Model of `JsonRpcWriter::write_message`: serialize the value, then write
the literal header `Content-Length: <N>\r\n\r\n` followed by the N body
bytes. -/
def write_message (v : Json) : List Char :=
  let body := serV v
  ("Content-Length: ").toList ++ natToDigits (utf8Len body) ++
    ('\r' :: '\n' :: '\r' :: '\n' :: body)

/-- Model of `BufRead::read_line`: the first line up to and including the
first line feed (or up to end of stream), with the remainder; an empty
result models a zero-byte read (end of stream). -/
def read_line : List Char → List Char × List Char
  | [] => ([], [])
  | c :: r =>
    if c = '\n' then ([c], r)
    else
      let p := read_line r
      (c :: p.1, p.2)

/-- Model of `trim_end_matches(&['\r', '\n'])`: drop trailing carriage
returns and line feeds. -/
def dropTrailingCrLf (l : List Char) : List Char :=
  (l.reverse.dropWhile (fun c => c = '\r' ∨ c = '\n')).reverse

/-- ASCII fragment of Rust's `char::is_whitespace` (Unicode White_Space). -/
def rustWs (c : Char) : Bool :=
  c = ' ' ∨ (9 ≤ c.toNat ∧ c.toNat ≤ 13)

/-- Model of `str::trim`: drop whitespace from both ends. -/
def rustTrim (l : List Char) : List Char :=
  ((l.dropWhile rustWs).reverse.dropWhile rustWs).reverse

/-- Strip an exact prefix, as `str::strip_prefix`. -/
def stripPre : List Char → List Char → Option (List Char)
  | [], l => some l
  | _ :: _, [] => none
  | a :: p, b :: l => if a = b then stripPre p l else none

/-- Model of `str::parse::<usize>` on a trimmed value: an optional plus sign
followed by a nonempty run of decimal digits (the platform overflow bound is
not modelled; a `Content-Length` produced by a peer that fits in memory never
reaches it). -/
def parseUsize (l : List Char) : Option Nat :=
  let digits := if l.head? = some '+' then l.tail else l
  match digits with
  | [] => none
  | _ =>
    if digits.all Char.isDigit then some (digitsToNat digits) else none

/-- The header key the reader matches, `strip_prefix("Content-Length:")`. -/
def clKey : List Char := ("Content-Length:").toList

/-- Header loop of `JsonRpcReader::read_message`: read lines until an empty
line, remembering the last parsed `Content-Length` value; `none` models the
`Ok(None)` return taken when `read_line` reads zero bytes.  The fuel is one
more than the remaining stream length, so it never runs out (each line read
consumes at least one character). -/
def readHeaderLoop : Nat → Option Nat → List Char → Option (Option Nat × List Char)
  | 0, _, _ => none
  | _ + 1, _, [] => none
  | fuel + 1, cl, c :: r =>
    let p := read_line (c :: r)
    let trimmed := dropTrailingCrLf p.1
    if trimmed = [] then some (cl, p.2)
    else
      match stripPre clKey trimmed with
      | some v => readHeaderLoop fuel (parseUsize (rustTrim v)) p.2
      | none => readHeaderLoop fuel cl p.2

/-- Take exactly `n` UTF-8 bytes from the stream (model of `read_exact` into
an `n`-byte buffer); fails if the stream is shorter, or if `n` falls inside
a character (a split that the lossy decoding of the source would smear and
that no length written by `write_message` produces). -/
def readExactBytes : List Char → Nat → Option (List Char × List Char)
  | l, 0 => some ([], l)
  | [], _ + 1 => none
  | c :: r, n + 1 =>
    if c.utf8Size ≤ n + 1 then
      match readExactBytes r (n + 1 - c.utf8Size) with
      | some (body, rest) => some (c :: body, rest)
      | none => none
    else none

/-- The two error kinds `read_message` can produce. -/
inductive IoErr where
  | invalidData
  | unexpectedEof
deriving DecidableEq, Repr

/-- Model of `JsonRpcReader::read_message` on a stream: read header lines
until a blank line (returning `Ok(None)` on a zero-byte read), fail when no
`Content-Length` was parsed, read exactly that many body bytes, parse them
as JSON.  On success the unconsumed remainder of the stream is returned with
the value. -/
def read_message (input : List Char) : Except IoErr (Option (Json × List Char)) :=
  match readHeaderLoop (input.length + 1) none input with
  | none => .ok none
  | some (none, _) => .error .invalidData
  | some (some len, rest) =>
    match readExactBytes rest len with
    | none => .error .unexpectedEof
    | some (body, rest2) =>
      match from_str body with
      | some v => .ok (some (v, rest2))
      | none => .error .invalidData

/-- Lookup in a JSON object, as serde_json's `Value::get(&str)` (not an
object, or key absent: `None`). -/
def getMember : List (List Char × Json) → List Char → Option Json
  | [], _ => none
  | (k, v) :: rest, key => if k = key then some v else getMember rest key

/-- Field access `message.get(key)` on a JSON value. -/
def Json.get : Json → List Char → Option Json
  | .obj ms, key => getMember ms key
  | _, _ => none

/-- Model of serde_json's `Value::as_u64`: an integer number in u64 range. -/
def as_u64 : Json → Option Nat
  | .num n => if 0 ≤ n ∧ n < (2 : Int) ^ 64 then some n.toNat else none
  | _ => none

/-- Model of serde_json's `Value::as_str`. -/
def as_str : Json → Option (List Char)
  | .str s => some s
  | _ => none

/-- The field names and the notification method the reader inspects. -/
def idKey : List Char := ("id").toList

/-- The `method` member name. -/
def methodKey : List Char := ("method").toList

/-- The `params` member name. -/
def paramsKey : List Char := ("params").toList

/-- The diagnostics-publish notification method name. -/
def diagMethod : List Char := ("textDocument/publishDiagnostics").toList

/-- The pending-request table `HashMap<u64, mpsc::Sender<Value>>`: request
id to the caller's one-shot channel, the channel named by a tag. -/
def PendingTable : Type := List (Nat × Nat)

/-- Remove the entry of an id from the pending table, returning its channel
tag and the table without it — `pending.remove(&id)`. -/
def removeEntry : List (Nat × Nat) → Nat → Option (Nat × List (Nat × Nat))
  | [], _ => none
  | (k, ch) :: rest, id =>
    if k = id then some (ch, rest)
    else
      match removeEntry rest id with
      | some (c, rest2) => some (c, (k, ch) :: rest2)
      | none => none

/-- What one iteration of the reader loop does to a successfully parsed
frame (mod.rs lines 241–255): a frame with a u64 `id` removes the matching
pending entry, if any, and sends the whole message into that channel;
otherwise a frame with a `method` emits its `params` as a diagnostics event
exactly when the method is the diagnostics-publish one. -/
structure ReaderEffect where
  pending' : List (Nat × Nat)
  sent : Option (Nat × Json)
  emitted : List Json

/-- One reader-loop iteration on a parsed message. -/
def readerStep (pending : List (Nat × Nat)) (message : Json) : ReaderEffect :=
  match (message.get idKey).bind as_u64 with
  | some id =>
    match removeEntry pending id with
    | some (tx, pending2) => ⟨pending2, some (tx, message), []⟩
    | none => ⟨pending, none, []⟩
  | none =>
    match (message.get methodKey).bind as_str with
    | some m =>
      if m = diagMethod then
        match message.get paramsKey with
        | some params => ⟨pending, none, [params]⟩
        | none => ⟨pending, none, []⟩
      else ⟨pending, none, []⟩
    | none => ⟨pending, none, []⟩

/-- One `read_message` outcome seen by the reader thread: a parsed frame, a
decoding failure (`Err(_)`), or clean end of stream (`Ok(None)`). -/
inductive ReadEvent where
  | msg (j : Json)
  | failure
  | eof

/-- The reader loop `while let Ok(Some(message)) = reader.read_message()`:
processes parsed frames in order and stops at the first failure or end of
stream.  Returns the final pending table, the channel deliveries made (in
order), and the diagnostics events emitted (in order). -/
def readerLoop (pending : List (Nat × Nat)) :
    List ReadEvent → List (Nat × Nat) × List (Nat × Json) × List Json
  | [] => (pending, [], [])
  | .msg j :: rest =>
    let e := readerStep pending j
    let t := readerLoop e.pending' rest
    (t.1, e.sent.toList ++ t.2.1, e.emitted ++ t.2.2)
  | .failure :: _ => (pending, [], [])
  | .eof :: _ => (pending, [], [])

/-- Ids allocated by successive `send_request` calls: each call takes
`next_id.fetch_add(1) + 1` and inserts its channel before writing.  Starting
counter `next`, one entry per caller channel, in issue order. -/
def issueRequests : Nat → List Nat → List (Nat × Nat)
  | _, [] => []
  | next, ch :: rest => (next + 1, ch) :: issueRequests (next + 1) rest

/-- The request/response timeout, `LS_REQUEST_TIMEOUT_SECONDS`. -/
def LS_REQUEST_TIMEOUT_SECONDS : Nat := 15

/-- Model of `LsClient::send_request` on the path where no response frame
with the allocated id is ever delivered by the reader: the id is allocated,
the channel is inserted into the pending table, the frame is written, and
`recv_timeout` elapses.  Returns the table as the call leaves it, the
allocated id, the seconds waited, and the call's result. -/
def send_request_timeout (pending : List (Nat × Nat)) (nextId ch : Nat) :
    List (Nat × Nat) × Nat × Nat × Except (List Char) Json :=
  let id := nextId + 1
  let pending2 := (id, ch) :: pending
  (pending2, id, LS_REQUEST_TIMEOUT_SECONDS,
    .error (("Timeout waiting for LS response").toList))

/-- A channel delivery reaches a caller only if the receiving end is still
held by a blocked caller; `mpsc::Sender::send` to a dropped receiver fails
and the reader discards the error (`let _ = tx.send(..)`). -/
def deliveredTo (live : List Nat) : Option (Nat × Json) → Option (Nat × Json)
  | some (ch, v) => if ch ∈ live then some (ch, v) else none
  | none => none

/-- Result of one `Child::try_wait` call. -/
inductive TryWaitRes where
  | exited
  | running
  | ioErr
deriving DecidableEq

/-- Graceful wait attempts before force-kill, `LS_STOP_WAIT_ATTEMPTS`. -/
def LS_STOP_WAIT_ATTEMPTS : Nat := 10

/-- Delay between wait attempts, `LS_STOP_WAIT_INTERVAL_MS`. -/
def LS_STOP_WAIT_INTERVAL_MS : Nat := 50

/-- Observable actions of the supervisor, tagged with the session (child)
they act on; `incrementRunId` is the generation-counter bump. -/
inductive SupAction where
  | incrementRunId
  | sendShutdownRequest (sid : Nat)
  | sendExitNotification (sid : Nat)
  | pollExited (sid : Nat)
  | pollRunning (sid : Nat)
  | pollErr (sid : Nat)
  | sleepMs (ms : Nat)
  | kill (sid : Nat)
  | spawnChild (sid : Nat)
  | installSession (sid : Nat)
deriving DecidableEq

/-- The graceful-wait loop of `stop_process`: up to `r` remaining attempts,
`i` is the index of the next `try_wait` call on the child (whose behaviour
the function `child` gives per call).  Returns the actions performed and
whether an exit was observed (in which case `stop_process` returns without
killing). -/
def stopAttempts (sid : Nat) (child : Nat → TryWaitRes) :
    Nat → Nat → List SupAction × Bool
  | 0, _ => ([], false)
  | r + 1, i =>
    match child i with
    | .exited => ([.pollExited sid], true)
    | .running =>
      let p := stopAttempts sid child r (i + 1)
      (.pollRunning sid :: .sleepMs LS_STOP_WAIT_INTERVAL_MS :: p.1, p.2)
    | .ioErr => ([.pollErr sid], false)

/-- Model of `stop_process`: best-effort `shutdown` request and `exit`
notification (results discarded), then the graceful-wait loop, then `kill`
unless an exit was observed. -/
def stop_process (sid : Nat) (child : Nat → TryWaitRes) : List SupAction :=
  let p := stopAttempts sid child LS_STOP_WAIT_ATTEMPTS 0
  .sendShutdownRequest sid :: .sendExitNotification sid ::
    (p.1 ++ (if p.2 then [] else [.kill sid]))

/-- Supervisor state: the single optional installed session behind the lock
(`LsState::inner`) and the generation counter (`LsState::run_id`). -/
structure SupState where
  session : Option Nat
  runId : Nat

/-- Model of the `ls_start` command body after its directory checks: bump the
generation counter, take and synchronously stop any existing session, then
spawn and install the new one (or leave none installed if spawning fails).
`oldChild` gives the old child's `try_wait` behaviour per call, `newSid`
names the new session, `spawnOk` whether `start_ls` succeeds. -/
def ls_start (st : SupState) (oldChild : Nat → TryWaitRes) (newSid : Nat)
    (spawnOk : Bool) : SupState × List SupAction :=
  let runId2 := st.runId + 1
  let stopActs := match st.session with
    | some old => stop_process old oldChild
    | none => []
  if spawnOk then
    ({ session := some newSid, runId := runId2 },
      .incrementRunId :: stopActs ++ [.spawnChild newSid, .installSession newSid])
  else
    ({ session := none, runId := runId2 }, .incrementRunId :: stopActs)

/-- Model of `shutdown` (the `ls_stop` path): bump the generation counter
first, then take the session out of the supervisor and run `stop_process`
on it; the supervisor is left with no session in every case. -/
def ls_shutdown (st : SupState) (child : Nat → TryWaitRes) :
    SupState × List SupAction :=
  let runId2 := st.runId + 1
  match st.session with
  | some sid =>
    ({ session := none, runId := runId2 }, .incrementRunId :: stop_process sid child)
  | none => ({ session := none, runId := runId2 }, [.incrementRunId])

/-- Count of `try_wait` polls on a session in an action trace. -/
def pollCount (sid : Nat) : List SupAction → Nat
  | [] => 0
  | .pollExited s :: r => (if s = sid then 1 else 0) + pollCount sid r
  | .pollRunning s :: r => (if s = sid then 1 else 0) + pollCount sid r
  | .pollErr s :: r => (if s = sid then 1 else 0) + pollCount sid r
  | _ :: r => pollCount sid r

/-- Target operating systems distinguished by the `cfg!` chain (everything
that is neither windows nor macos falls into the last branch). -/
inductive TargetOs where
  | windows
  | macos
  | linux
  | otherUnix
deriving DecidableEq, Fintype

/-- Target CPU architectures distinguished by the `cfg!` chain. -/
inductive TargetArch where
  | x86_64
  | aarch64
deriving DecidableEq, Fintype

/-- Model of `config_dir_name` (jdtls.rs lines 17–31): the bundled default
configuration subdirectory for the build's target OS and architecture. -/
def config_dir_name (os : TargetOs) (arch : TargetArch) : List Char :=
  if os = .windows then ("config_win").toList
  else if os = .macos then
    if arch = .aarch64 then ("config_mac_arm").toList else ("config_mac").toList
  else
    if arch = .aarch64 then ("config_linux_arm").toList else ("config_linux").toList

/-- Unreserved URI bytes (uri.rs `is_unreserved`). -/
def is_unreserved (byte : Nat) : Bool :=
  (97 ≤ byte ∧ byte ≤ 122) ∨ (65 ≤ byte ∧ byte ≤ 90) ∨
    (48 ≤ byte ∧ byte ≤ 57) ∨ byte = 45 ∨ byte = 46 ∨ byte = 95 ∨ byte = 126

/-- Upper-case hexadecimal digit, as produced by `format!("%{:02X}", byte)`. -/
def hexUpper (k : Nat) : Char :=
  if k < 10 then decDigit k else Char.ofNat (65 + (k - 10))

/-- Model of uri.rs `percent_encode`; the source iterates over UTF-8 bytes,
modelled here on the characters themselves (faithful for ASCII input, which
is all the round-trip claims quantify over). -/
def percent_encode : List Char → List Char
  | [] => []
  | c :: r =>
    (if is_unreserved c.toNat ∨ c = '/' ∨ c = ':' then [c]
     else ['%', hexUpper (c.toNat / 16), hexUpper (c.toNat % 16)]) ++ percent_encode r

/-- Model of uri.rs `percent_decode`: a percent sign takes the next two
characters (defaulting to '0' when the input ends), decodes them as hex if
possible and otherwise emits the three characters verbatim. -/
def percent_decode : List Char → List Char
  | [] => []
  | '%' :: hi :: lo :: rest =>
    match hexVal hi, hexVal lo with
    | some h, some l => Char.ofNat (h * 16 + l) :: percent_decode rest
    | _, _ => '%' :: hi :: lo :: percent_decode rest
  | ['%', hi] =>
    (match hexVal hi, hexVal '0' with
     | some h, some l => [Char.ofNat (h * 16 + l)]
     | _, _ => ['%', hi, '0'])
  | ['%'] => [Char.ofNat 0]
  | c :: rest => c :: percent_decode rest

/-- The scheme prefix used by both conversion functions. -/
def fileScheme : List Char := ("file://").toList

/-- Does the first list start with the second? -/
def startsWithL (l p : List Char) : Bool :=
  match stripPre p l with
  | some _ => true
  | none => false

/-- Model of `str::trim_start_matches(pat)`: repeatedly strip the prefix
while it is present (fueled by the input length; the pattern used here is
nonempty, so each strip consumes characters). -/
def trimStartList : Nat → List Char → List Char → List Char
  | 0, _, l => l
  | fuel + 1, pat, l =>
    match stripPre pat l with
    | some rest => if pat = [] then l else trimStartList fuel pat rest
    | none => l

/-- Model of uri.rs `path_to_uri` (on the path's string form): backslashes
become slashes, a Windows drive form `X:...` gains a leading slash, a UNC
`//...` gains another, then the result is percent-encoded behind the
`file://` scheme. -/
def path_to_uri (path : List Char) : List Char :=
  let p1 := path.map (fun c => if c = '\\' then '/' else c)
  let p2 := if 2 ≤ p1.length ∧ p1.get? 1 = some ':' then '/' :: p1 else p1
  let p3 := if startsWithL p2 (['/', '/']) then '/' :: p2 else p2
  fileScheme ++ percent_encode p3

/-- Model of uri.rs `uri_to_path` (returning the path's string form): strip
every leading `file://`, percent-decode, and for a decoded `/X:...` drive
form drop the leading slashes. -/
def uri_to_path (uri : List Char) : List Char :=
  let stripped := trimStartList (uri.length + 1) fileScheme uri
  let decoded := percent_decode stripped
  if decoded.get? 0 = some '/' ∧ 3 < decoded.length ∧ decoded.get? 2 = some ':' then
    decoded.dropWhile (fun c => c = '/')
  else decoded

/-- Does the stream start with a decimal digit?  (Delimiter condition used
by the parser round-trip lemmas: a serialized number followed by such a
remainder would merge with it.) -/
def headIsDigit : List Char → Bool
  | [] => false
  | c :: _ => c.isDigit

theorem decDigit_isDigit {k : Nat} (h : k < 10) : (decDigit k).isDigit = true := by
  interval_cases k <;> decide

theorem decDigit_toNat {k : Nat} (h : k < 10) : (decDigit k).toNat = 48 + k := by
  interval_cases k <;> decide

theorem natToDigits_ne_nil (n : Nat) : natToDigits n ≠ [] := by
  rw [natToDigits.eq_def]
  split <;> simp

theorem natToDigits_all_digit (n : Nat) : ∀ c ∈ natToDigits n, c.isDigit = true := by
  induction n using Nat.strong_induction_on with
  | _ n ih =>
    rw [natToDigits.eq_def]
    split
    · intro c hc
      simp only [List.mem_singleton] at hc
      subst hc
      exact decDigit_isDigit (by omega)
    · intro c hc
      rcases List.mem_append.mp hc with h | h
      · exact ih (n / 10) (Nat.div_lt_self (by omega) (by omega)) c h
      · simp only [List.mem_singleton] at h
        subst h
        exact decDigit_isDigit (Nat.mod_lt _ (by omega))

theorem digitsToNat_concat (ds : List Char) (d : Char) :
    digitsToNat (ds ++ [d]) = 10 * digitsToNat ds + (d.toNat - 48) := by
  simp only [digitsToNat, List.foldl_append, List.foldl_cons, List.foldl_nil]
  ring

theorem digitsToNat_natToDigits (n : Nat) : digitsToNat (natToDigits n) = n := by
  induction n using Nat.strong_induction_on with
  | _ n ih =>
    rw [natToDigits.eq_def]
    split
    · rename_i h
      simp [digitsToNat, decDigit_toNat h]
    · rename_i h
      rw [digitsToNat_concat, ih (n / 10) (Nat.div_lt_self (by omega) (by omega)),
        decDigit_toNat (Nat.mod_lt _ (by omega))]
      omega

theorem isDigit_toNat {c : Char} (h : c.isDigit = true) :
    48 ≤ c.toNat ∧ c.toNat ≤ 57 := by
  simp only [Char.isDigit, Bool.and_eq_true, decide_eq_true_eq] at h
  obtain ⟨h1, h2⟩ := h
  exact ⟨h1, h2⟩

theorem ne_of_digit_not {c d : Char} (h : c.isDigit = true)
    (hd : d.isDigit = false) : c ≠ d := by
  intro he
  subst he
  rw [h] at hd
  exact Bool.noConfusion hd

theorem digit_not_jsonWs {c : Char} (h : c.isDigit = true) : isJsonWs c = false := by
  have hb := isDigit_toNat h
  simp only [isJsonWs, decide_eq_false_iff_not]
  push_neg
  refine ⟨?_, ?_, ?_, ?_⟩ <;> · intro h'; subst h'; revert hb; decide

theorem digit_not_rustWs {c : Char} (h : c.isDigit = true) : rustWs c = false := by
  have hb := isDigit_toNat h
  simp only [rustWs, decide_eq_false_iff_not]
  push_neg
  constructor
  · intro h'; subst h'; revert hb; decide
  · intro h'; omega

theorem takeDigits_append {ds rest : List Char}
    (h1 : ∀ c ∈ ds, c.isDigit = true) (h2 : headIsDigit rest = false) :
    takeDigits (ds ++ rest) = (ds, rest) := by
  induction ds with
  | nil =>
    cases rest with
    | nil => rfl
    | cons c r =>
      simp only [headIsDigit] at h2
      simp [takeDigits, h2]
  | cons c t ih =>
    have hc : c.isDigit = true := h1 c (List.mem_cons_self c t)
    have ht := ih (fun x hx => h1 x (List.mem_cons_of_mem c hx))
    simp [List.cons_append, takeDigits, hc, ht]

theorem parseDigits_natToDigits (n : Nat) {rest : List Char}
    (h : headIsDigit rest = false) :
    parseDigits (natToDigits n ++ rest) = some (n, rest) := by
  rw [parseDigits, takeDigits_append (natToDigits_all_digit n) h]
  have hne := natToDigits_ne_nil n
  cases hd : natToDigits n with
  | nil => exact absurd hd hne
  | cons a t =>
    show some (digitsToNat (a :: t), rest) = some (n, rest)
    rw [← hd, digitsToNat_natToDigits n]

theorem skipWs_not_ws {c : Char} (r : List Char) (h : isJsonWs c = false) :
    skipWs (c :: r) = c :: r := by
  simp [skipWs, h]

theorem hexVal_hexLower {k : Nat} (h : k < 16) : hexVal (hexLower k) = some k := by
  interval_cases k <;> decide

theorem parseStrBody_escapeChar (c : Char) (t : List Char) :
    parseStrBody (escapeChar c ++ t) =
      match parseStrBody t with
      | some (s, rest) => some (c :: s, rest)
      | none => none := by
  by_cases h1 : c = '"'
  · subst h1; simp [escapeChar, parseStrBody, unescapeChar]
  by_cases h2 : c = '\\'
  · subst h2; simp [escapeChar, parseStrBody, unescapeChar]
  by_cases h3 : c.toNat < 32
  · by_cases e8 : c = Char.ofNat 8
    · subst e8; simp [escapeChar, parseStrBody, unescapeChar]
    by_cases e9 : c = Char.ofNat 9
    · subst e9; simp [escapeChar, parseStrBody, unescapeChar]
    by_cases e10 : c = Char.ofNat 10
    · subst e10; simp [escapeChar, parseStrBody, unescapeChar]
    by_cases e12 : c = Char.ofNat 12
    · subst e12; simp [escapeChar, parseStrBody, unescapeChar]
    by_cases e13 : c = Char.ofNat 13
    · subst e13; simp [escapeChar, parseStrBody, unescapeChar]
    · have hesc : escapeChar c =
          ['\\', 'u', '0', '0', hexLower (c.toNat / 16), hexLower (c.toNat % 16)] := by
        simp [escapeChar, h1, h2, h3, e8, e9, e10, e12, e13]
      rw [hesc]
      have hhi : hexVal (hexLower (c.toNat / 16)) = some (c.toNat / 16) :=
        hexVal_hexLower (by omega)
      have hlo : hexVal (hexLower (c.toNat % 16)) = some (c.toNat % 16) :=
        hexVal_hexLower (Nat.mod_lt _ (by omega))
      have harith : ((0 * 16 + 0) * 16 + c.toNat / 16) * 16 + c.toNat % 16 = c.toNat := by
        omega
      have h0 : hexVal '0' = some 0 := by decide
      have hc : Char.ofNat (((0 * 16 + 0) * 16 + c.toNat / 16) * 16 + c.toNat % 16) = c := by
        rw [harith]; exact Char.ofNat_toNat c
      have hc2 : Char.ofNat (c.toNat / 16 * 16 + c.toNat % 16) = c := by
        have he : c.toNat / 16 * 16 + c.toNat % 16 = c.toNat := by omega
        rw [he]; exact Char.ofNat_toNat c
      rw [parseStrBody.eq_def]
      simp [h0, hhi, hlo, hc, hc2]
  · have hesc : escapeChar c = [c] := by
      simp [escapeChar, h1, h2, h3]
    rw [hesc, List.cons_append, parseStrBody.eq_def]
    simp [h1, h2]

theorem parseStrBody_escString (s : List Char) (rest : List Char) :
    parseStrBody (escString s ++ '"' :: rest) = some (s, rest) := by
  induction s with
  | nil =>
    simp only [escString, List.nil_append]
    rw [parseStrBody.eq_def]
    simp
  | cons c t ih =>
    rw [escString, List.append_assoc, parseStrBody_escapeChar, ih]

theorem natToDigits_head (n : Nat) :
    ∃ d t, natToDigits n = d :: t ∧ d.isDigit = true := by
  induction n using Nat.strong_induction_on with
  | _ n ih =>
    rw [natToDigits.eq_def]
    split
    · rename_i h
      exact ⟨decDigit n, [], rfl, decDigit_isDigit (by omega)⟩
    · rename_i h
      obtain ⟨d, t, hd, hdig⟩ := ih (n / 10) (Nat.div_lt_self (by omega) (by omega))
      exact ⟨d, t ++ [decDigit (n % 10)], by rw [hd]; rfl, hdig⟩

theorem serV_head (v : Json) :
    ∃ c t, serV v = c :: t ∧ isJsonWs c = false ∧ c ≠ ']' ∧ c ≠ '}' := by
  cases v with
  | null => exact ⟨'n', ['u', 'l', 'l'], by simp [serV], by decide, by decide, by decide⟩
  | bool b =>
    cases b with
    | true => exact ⟨'t', ['r', 'u', 'e'], by simp [serV], by decide, by decide, by decide⟩
    | false => exact ⟨'f', ['a', 'l', 's', 'e'], by simp [serV], by decide, by decide, by decide⟩
  | num n =>
    by_cases hn : n < 0
    · exact ⟨'-', natToDigits n.natAbs, by simp [serV, serInt, hn], by decide, by decide, by decide⟩
    · obtain ⟨d, t, hd, hdig⟩ := natToDigits_head n.toNat
      exact ⟨d, t, by simp [serV, serInt, hn, hd], digit_not_jsonWs hdig,
        ne_of_digit_not hdig (by decide), ne_of_digit_not hdig (by decide)⟩
  | str s =>
    exact ⟨'"', escString s ++ ['"'], by simp [serV, serStrLit], by decide, by decide, by decide⟩
  | arr items =>
    cases items with
    | nil => exact ⟨'[', [']'], by simp [serV], by decide, by decide, by decide⟩
    | cons x xs =>
      exact ⟨'[', serV x ++ serItems xs ++ [']'], by simp [serV], by decide, by decide, by decide⟩
  | obj members =>
    cases members with
    | nil => exact ⟨'{', ['}'], by simp [serV], by decide, by decide, by decide⟩
    | cons m ms =>
      exact ⟨'{', serMember m ++ serMembers ms ++ ['}'], by simp [serV], by decide, by decide, by decide⟩

theorem headIsDigit_serItems (xs : List Json) (c : Char) (rest : List Char)
    (hc : c.isDigit = false) :
    headIsDigit (serItems xs ++ c :: rest) = false := by
  cases xs with
  | nil => simp [serItems, headIsDigit, hc]
  | cons x t => simp [serItems, headIsDigit]

theorem headIsDigit_serMembers (ms : List (List Char × Json)) (c : Char)
    (rest : List Char) (hc : c.isDigit = false) :
    headIsDigit (serMembers ms ++ c :: rest) = false := by
  cases ms with
  | nil => simp [serMembers, headIsDigit, hc]
  | cons m t => simp [serMembers, headIsDigit]

theorem parseV_null (fuel : Nat) (rest : List Char) :
    parseV (fuel + 1) ('n' :: 'u' :: 'l' :: 'l' :: rest) = some (.null, rest) := by
  rw [parseV.eq_def]
  simp [skipWs, isJsonWs]

theorem parseV_true (fuel : Nat) (rest : List Char) :
    parseV (fuel + 1) ('t' :: 'r' :: 'u' :: 'e' :: rest) = some (.bool true, rest) := by
  rw [parseV.eq_def]
  simp [skipWs, isJsonWs]

theorem parseV_false (fuel : Nat) (rest : List Char) :
    parseV (fuel + 1) ('f' :: 'a' :: 'l' :: 's' :: 'e' :: rest) = some (.bool false, rest) := by
  rw [parseV.eq_def]
  simp [skipWs, isJsonWs]

theorem parseV_quote (fuel : Nat) (r : List Char) :
    parseV (fuel + 1) ('"' :: r) =
      match parseStrBody r with
      | some (s, rest) => some (.str s, rest)
      | none => none := by
  rw [parseV.eq_def]
  simp [skipWs, isJsonWs]

theorem parseV_arr_empty (fuel : Nat) (rest : List Char) :
    parseV (fuel + 1) ('[' :: ']' :: rest) = some (.arr [], rest) := by
  rw [parseV.eq_def]
  simp [skipWs, isJsonWs]

theorem parseV_arr_open (fuel : Nat) (c2 : Char) (r2 : List Char)
    (hws : isJsonWs c2 = false) (hne : c2 ≠ ']') :
    parseV (fuel + 1) ('[' :: c2 :: r2) =
      match parseV fuel (c2 :: r2) with
      | some (v, r3) =>
        match parseItems fuel r3 with
        | some (vs, r4) => some (.arr (v :: vs), r4)
        | none => none
      | none => none := by
  have hb : isJsonWs '[' = false := by decide
  rw [parseV.eq_def]
  simp [skipWs, hb, hws, hne]

theorem parseV_obj_empty (fuel : Nat) (rest : List Char) :
    parseV (fuel + 1) ('{' :: '}' :: rest) = some (.obj [], rest) := by
  rw [parseV.eq_def]
  simp [skipWs, isJsonWs]

theorem parseV_obj_open (fuel : Nat) (c2 : Char) (r2 : List Char)
    (hws : isJsonWs c2 = false) (hne : c2 ≠ '}') :
    parseV (fuel + 1) ('{' :: c2 :: r2) =
      match parseMember fuel (c2 :: r2) with
      | some (m, r3) =>
        match parseMembersTail fuel r3 with
        | some (ms, r4) => some (.obj (m :: ms), r4)
        | none => none
      | none => none := by
  have hb : isJsonWs '{' = false := by decide
  rw [parseV.eq_def]
  simp [skipWs, hb, hws, hne]

theorem parseV_minus (fuel : Nat) (r : List Char) :
    parseV (fuel + 1) ('-' :: r) =
      match parseDigits r with
      | some (n, rest) => some (.num (-(n : Int)), rest)
      | none => none := by
  rw [parseV.eq_def]
  simp [skipWs, isJsonWs]

theorem parseV_digit (fuel : Nat) {c : Char} (r : List Char) (hc : c.isDigit = true) :
    parseV (fuel + 1) (c :: r) =
      match parseDigits (c :: r) with
      | some (n, rest) => some (.num (n : Int), rest)
      | none => none := by
  have h1 : c ≠ 'n' := ne_of_digit_not hc (by decide)
  have h2 : c ≠ 't' := ne_of_digit_not hc (by decide)
  have h3 : c ≠ 'f' := ne_of_digit_not hc (by decide)
  have h4 : c ≠ '"' := ne_of_digit_not hc (by decide)
  have h5 : c ≠ '[' := ne_of_digit_not hc (by decide)
  have h6 : c ≠ '{' := ne_of_digit_not hc (by decide)
  have h7 : c ≠ '-' := ne_of_digit_not hc (by decide)
  rw [parseV.eq_def]
  simp [skipWs, digit_not_jsonWs hc, h1, h2, h3, h4, h5, h6, h7, hc]

theorem parseItems_close (fuel : Nat) (rest : List Char) :
    parseItems (fuel + 1) (']' :: rest) = some ([], rest) := by
  rw [parseItems.eq_def]
  simp [skipWs, isJsonWs]

theorem parseItems_comma (fuel : Nat) (r : List Char) :
    parseItems (fuel + 1) (',' :: r) =
      match parseV fuel r with
      | some (v, r2) =>
        match parseItems fuel r2 with
        | some (vs, r3) => some (v :: vs, r3)
        | none => none
      | none => none := by
  rw [parseItems.eq_def]
  simp [skipWs, isJsonWs]

theorem parseMembersTail_close (fuel : Nat) (rest : List Char) :
    parseMembersTail (fuel + 1) ('}' :: rest) = some ([], rest) := by
  rw [parseMembersTail.eq_def]
  simp [skipWs, isJsonWs]

theorem parseMembersTail_comma (fuel : Nat) (r : List Char) :
    parseMembersTail (fuel + 1) (',' :: r) =
      match parseMember fuel r with
      | some (m, r2) =>
        match parseMembersTail fuel r2 with
        | some (ms, r3) => some (m :: ms, r3)
        | none => none
      | none => none := by
  rw [parseMembersTail.eq_def]
  simp [skipWs, isJsonWs]

theorem parseMember_quote (fuel : Nat) (r : List Char) :
    parseMember (fuel + 1) ('"' :: r) =
      match parseStrBody r with
      | some (k, r2) =>
        (match skipWs r2 with
         | [] => none
         | c2 :: r3 =>
           if c2 = ':' then
             match parseV fuel r3 with
             | some (v, r4) => some ((k, v), r4)
             | none => none
           else none)
      | none => none := by
  rw [parseMember.eq_def]
  simp [skipWs, isJsonWs]

theorem parseV_serInt (fuel : Nat) (n : Int) (rest : List Char)
    (hrest : headIsDigit rest = false) :
    parseV (fuel + 1) (serInt n ++ rest) = some (.num n, rest) := by
  by_cases hn : n < 0
  · have hs : serInt n ++ rest = '-' :: (natToDigits n.natAbs ++ rest) := by
      simp [serInt, hn]
    rw [hs, parseV_minus, parseDigits_natToDigits n.natAbs hrest]
    have hval : -(n.natAbs : Int) = n := by omega
    show some (Json.num (-(n.natAbs : Int)), rest) = some (Json.num n, rest)
    rw [hval]
  · obtain ⟨d, t, hd, hdig⟩ := natToDigits_head n.toNat
    have hs : serInt n ++ rest = d :: (t ++ rest) := by
      simp [serInt, hn, hd]
    rw [hs, parseV_digit fuel (t ++ rest) hdig]
    have hback : d :: (t ++ rest) = natToDigits n.toNat ++ rest := by
      rw [hd]; rfl
    rw [hback, parseDigits_natToDigits n.toNat hrest]
    have hval : (n.toNat : Int) = n := by omega
    show some (Json.num ((n.toNat : Int)), rest) = some (Json.num n, rest)
    rw [hval]

theorem parse_serV_roundtrip (fuel : Nat) :
    (∀ (v : Json) (rest : List Char), (serV v).length ≤ fuel → headIsDigit rest = false →
      parseV fuel (serV v ++ rest) = some (v, rest)) ∧
    (∀ (xs : List Json) (rest : List Char), (serItems xs).length + 1 ≤ fuel →
      parseItems fuel (serItems xs ++ ']' :: rest) = some (xs, rest)) ∧
    (∀ (ms : List (List Char × Json)) (rest : List Char), (serMembers ms).length + 1 ≤ fuel →
      parseMembersTail fuel (serMembers ms ++ '}' :: rest) = some (ms, rest)) ∧
    (∀ (k : List Char) (v : Json) (rest : List Char), (serMember (k, v)).length ≤ fuel →
      headIsDigit rest = false →
      parseMember fuel (serMember (k, v) ++ rest) = some ((k, v), rest)) := by
  induction fuel with
  | zero =>
    refine ⟨?_, ?_, ?_, ?_⟩
    · intro v rest hlen _
      obtain ⟨c, t, hc, -, -, -⟩ := serV_head v
      rw [hc] at hlen
      simp at hlen
    · intro xs rest hlen
      omega
    · intro ms rest hlen
      omega
    · intro k v rest hlen _
      simp [serMember, serStrLit] at hlen
  | succ fuel ih =>
    obtain ⟨ihV, ihI, ihM, ihMem⟩ := ih
    refine ⟨?_, ?_, ?_, ?_⟩
    · intro v rest hlen hrest
      cases v with
      | null =>
        have hs : serV .null ++ rest = 'n' :: 'u' :: 'l' :: 'l' :: rest := by simp [serV]
        rw [hs, parseV_null]
      | bool b =>
        cases b with
        | true =>
          have hs : serV (.bool true) ++ rest = 't' :: 'r' :: 'u' :: 'e' :: rest := by
            simp [serV]
          rw [hs, parseV_true]
        | false =>
          have hs : serV (.bool false) ++ rest = 'f' :: 'a' :: 'l' :: 's' :: 'e' :: rest := by
            simp [serV]
          rw [hs, parseV_false]
      | num n =>
        have hs : serV (.num n) ++ rest = serInt n ++ rest := by simp [serV]
        rw [hs, parseV_serInt fuel n rest hrest]
      | str s =>
        have hs : serV (.str s) ++ rest = '"' :: (escString s ++ '"' :: rest) := by
          simp [serV, serStrLit]
        rw [hs, parseV_quote, parseStrBody_escString]
      | arr items =>
        cases items with
        | nil =>
          have hs : serV (.arr []) ++ rest = '[' :: ']' :: rest := by simp [serV]
          rw [hs, parseV_arr_empty]
        | cons x xs =>
          obtain ⟨c2, t2, hx, hws2, hbr2, -⟩ := serV_head x
          have he : (serV (.arr (x :: xs))).length
              = (serV x).length + (serItems xs).length + 2 := by
            simp [serV] <;> omega
          have hlen2 : (serV x).length ≤ fuel := by omega
          have hitems : (serItems xs).length + 1 ≤ fuel := by omega
          have hdel : headIsDigit (serItems xs ++ ']' :: rest) = false :=
            headIsDigit_serItems xs ']' rest (by decide)
          have hs : serV (.arr (x :: xs)) ++ rest
              = '[' :: (serV x ++ (serItems xs ++ ']' :: rest)) := by
            simp [serV]
          rw [hs, hx]
          simp only [List.cons_append]
          rw [parseV_arr_open fuel c2 _ hws2 hbr2]
          rw [← List.cons_append, ← hx, ihV x _ hlen2 hdel]
          simp [ihI xs rest hitems]
      | obj members =>
        cases members with
        | nil =>
          have hs : serV (.obj []) ++ rest = '{' :: '}' :: rest := by simp [serV]
          rw [hs, parseV_obj_empty]
        | cons m ms =>
          obtain ⟨k, vv⟩ := m
          have he : (serV (.obj ((k, vv) :: ms))).length
              = (serMember (k, vv)).length + (serMembers ms).length + 2 := by
            simp [serV] <;> omega
          have hlen2 : (serMember (k, vv)).length ≤ fuel := by omega
          have hmems : (serMembers ms).length + 1 ≤ fuel := by omega
          have hdel : headIsDigit (serMembers ms ++ '}' :: rest) = false :=
            headIsDigit_serMembers ms '}' rest (by decide)
          have hs : serV (.obj ((k, vv) :: ms)) ++ rest
              = '{' :: (serMember (k, vv) ++ (serMembers ms ++ '}' :: rest)) := by
            simp [serV]
          have hmm : serMember (k, vv) = '"' :: (escString k ++ '"' :: (':' :: serV vv)) := by
            simp [serMember, serStrLit]
          rw [hs, hmm]
          simp only [List.cons_append]
          rw [parseV_obj_open fuel '"' _ (by decide) (by decide)]
          rw [← List.cons_append, ← hmm, ihMem k vv _ hlen2 hdel]
          simp [ihM ms rest hmems]
    · intro xs rest hlen
      cases xs with
      | nil =>
        have hs : serItems [] ++ ']' :: rest = ']' :: rest := by simp [serItems]
        rw [hs, parseItems_close]
      | cons x xs' =>
        have he : (serItems (x :: xs')).length
            = (serV x).length + (serItems xs').length + 1 := by
          simp [serItems] <;> omega
        have hlenx : (serV x).length ≤ fuel := by omega
        have hitems : (serItems xs').length + 1 ≤ fuel := by omega
        have hdel : headIsDigit (serItems xs' ++ ']' :: rest) = false :=
          headIsDigit_serItems xs' ']' rest (by decide)
        have hs : serItems (x :: xs') ++ ']' :: rest
            = ',' :: (serV x ++ (serItems xs' ++ ']' :: rest)) := by
          simp [serItems]
        rw [hs, parseItems_comma, ihV x _ hlenx hdel]
        simp [ihI xs' rest hitems]
    · intro ms rest hlen
      cases ms with
      | nil =>
        have hs : serMembers [] ++ '}' :: rest = '}' :: rest := by simp [serMembers]
        rw [hs, parseMembersTail_close]
      | cons m ms' =>
        obtain ⟨k, vv⟩ := m
        have he : (serMembers ((k, vv) :: ms')).length
            = (serMember (k, vv)).length + (serMembers ms').length + 1 := by
          simp [serMembers] <;> omega
        have hlenm : (serMember (k, vv)).length ≤ fuel := by omega
        have hmems : (serMembers ms').length + 1 ≤ fuel := by omega
        have hdel : headIsDigit (serMembers ms' ++ '}' :: rest) = false :=
          headIsDigit_serMembers ms' '}' rest (by decide)
        have hs : serMembers ((k, vv) :: ms') ++ '}' :: rest
            = ',' :: (serMember (k, vv) ++ (serMembers ms' ++ '}' :: rest)) := by
          simp [serMembers]
        rw [hs, parseMembersTail_comma, ihMem k vv _ hlenm hdel]
        simp [ihM ms' rest hmems]
    · intro k v rest hlen hrest
      have he : (serMember (k, v)).length = (escString k).length + (serV v).length + 3 := by
        simp [serMember, serStrLit] <;> omega
      have hv : (serV v).length ≤ fuel := by omega
      have hs : serMember (k, v) ++ rest
          = '"' :: (escString k ++ '"' :: (':' :: (serV v ++ rest))) := by
        simp [serMember, serStrLit]
      rw [hs, parseMember_quote, parseStrBody_escString]
      have hcolon : skipWs (':' :: (serV v ++ rest)) = ':' :: (serV v ++ rest) :=
        skipWs_not_ws _ (by decide)
      simp [hcolon, ihV v rest hv hrest]

theorem from_str_serV (v : Json) : from_str (serV v) = some v := by
  have h := (parse_serV_roundtrip ((serV v).length + 1)).1 v [] (by omega) rfl
  rw [List.append_nil] at h
  rw [from_str, h]
  rfl

theorem read_line_no_lf (l1 r : List Char) (h : '\n' ∉ l1) :
    read_line (l1 ++ '\n' :: r) = (l1 ++ ['\n'], r) := by
  induction l1 with
  | nil => simp [read_line]
  | cons c t ih =>
    have hc : c ≠ '\n' := fun he => h (he ▸ List.mem_cons_self c t)
    have ht : '\n' ∉ t := fun hm => h (List.mem_cons_of_mem c hm)
    simp [read_line, hc, ih ht]

theorem dropTrailingCrLf_crlf (l : List Char) :
    dropTrailingCrLf (l ++ ['\r', '\n']) = dropTrailingCrLf l := by
  simp [dropTrailingCrLf, List.dropWhile]

theorem dropTrailingCrLf_last {d : Char} (l : List Char)
    (h : (d = '\r' ∨ d = '\n') = False) :
    dropTrailingCrLf (l ++ [d]) = l ++ [d] := by
  simp [dropTrailingCrLf, List.dropWhile, h]

theorem stripPre_self_append (p l : List Char) : stripPre p (p ++ l) = some l := by
  induction p with
  | nil => rfl
  | cons a t ih => simp [stripPre, ih]

theorem dropWhile_all_append {p : Char → Bool} {a : List Char} (l : List Char)
    (ha : ∀ c ∈ a, p c = true) :
    (a ++ l).dropWhile p = l.dropWhile p := by
  induction a with
  | nil => rfl
  | cons c t ih =>
    have hc := ha c (List.mem_cons_self c t)
    simp [List.dropWhile, hc, ih (fun x hx => ha x (List.mem_cons_of_mem c hx))]

theorem dropWhile_cons_false {p : Char → Bool} {c : Char} (l : List Char)
    (hc : p c = false) : (c :: l).dropWhile p = c :: l := by
  simp [List.dropWhile, hc]

theorem rustTrim_padded {a b l : List Char}
    (ha : ∀ c ∈ a, rustWs c = true) (hb : ∀ c ∈ b, rustWs c = true)
    (hl : ∀ c ∈ l, rustWs c = false) (hne : l ≠ []) :
    rustTrim (a ++ l ++ b) = l := by
  obtain ⟨c, t, rfl⟩ : ∃ c t, l = c :: t := by
    cases l with
    | nil => exact absurd rfl hne
    | cons c t => exact ⟨c, t, rfl⟩
  have h1 : List.dropWhile rustWs (a ++ (c :: t) ++ b) = c :: (t ++ b) := by
    rw [List.append_assoc, dropWhile_all_append _ ha, List.cons_append,
      dropWhile_cons_false _ (hl c (List.mem_cons_self c t))]
  rw [rustTrim, h1]
  have h2 : (c :: (t ++ b)).reverse = b.reverse ++ (t.reverse ++ [c]) := by
    simp [List.reverse_cons, List.reverse_append, List.append_assoc]
  rw [h2, dropWhile_all_append _ (fun x hx => hb x (List.mem_reverse.mp hx))]
  have h3 : List.dropWhile rustWs (t.reverse ++ [c]) = t.reverse ++ [c] := by
    cases ht : t.reverse with
    | nil => simp [List.dropWhile, hl c (List.mem_cons_self c t)]
    | cons d u =>
      have hdt : d ∈ t := List.mem_reverse.mp (ht ▸ List.mem_cons_self d u)
      simp only [List.cons_append]
      exact dropWhile_cons_false _ (hl d (List.mem_cons_of_mem c hdt))
  rw [h3]
  simp

theorem natToDigits_concat (n : Nat) :
    ∃ t d, natToDigits n = t ++ [d] ∧ d.isDigit = true := by
  rw [natToDigits.eq_def]
  split
  · rename_i h
    exact ⟨[], decDigit n, rfl, decDigit_isDigit (by omega)⟩
  · rename_i h
    exact ⟨natToDigits (n / 10), decDigit (n % 10), rfl,
      decDigit_isDigit (Nat.mod_lt _ (by omega))⟩

theorem parseUsize_natToDigits (n : Nat) : parseUsize (natToDigits n) = some n := by
  obtain ⟨d, t, hd, hdig⟩ := natToDigits_head n
  have hplus : (natToDigits n).head? ≠ some '+' := by
    rw [hd]
    simp
    exact ne_of_digit_not hdig (by decide)
  have hall : (natToDigits n).all Char.isDigit = true := by
    rw [List.all_eq_true]
    intro c hc
    exact natToDigits_all_digit n c hc
  rw [parseUsize]
  simp only [if_neg hplus]
  rw [hd]
  simp only [← hd, hall, if_true]
  rw [digitsToNat_natToDigits]

theorem readHeaderLoop_blank (fuel : Nat) (cl : Option Nat) (x : List Char) :
    readHeaderLoop (fuel + 1) cl ('\r' :: '\n' :: x) = some (cl, x) := by
  rw [readHeaderLoop.eq_def]
  simp [read_line, dropTrailingCrLf, List.dropWhile]

theorem readHeaderLoop_step (fuel : Nat) (cl : Option Nat) (a : Char)
    (t r : List Char) (hnl : '\n' ∉ a :: t)
    (hne : dropTrailingCrLf ((a :: t) ++ ['\n']) ≠ []) :
    readHeaderLoop (fuel + 1) cl ((a :: t) ++ '\n' :: r) =
      (match stripPre clKey (dropTrailingCrLf ((a :: t) ++ ['\n'])) with
       | some v => readHeaderLoop fuel (parseUsize (rustTrim v)) r
       | none => readHeaderLoop fuel cl r) := by
  have hrl : read_line ((a :: t) ++ '\n' :: r) = ((a :: t) ++ ['\n'], r) :=
    read_line_no_lf (a :: t) r hnl
  rw [show (a :: t) ++ '\n' :: r = a :: (t ++ '\n' :: r) from rfl] at hrl ⊢
  rw [readHeaderLoop.eq_def]
  simp only [hrl, if_neg hne]

theorem readExactBytes_utf8 (body rest : List Char) :
    readExactBytes (body ++ rest) (utf8Len body) = some (body, rest) := by
  induction body with
  | nil => simp [utf8Len, readExactBytes]
  | cons c t ih =>
    have hpos := Char.utf8Size_pos c
    have hlen : utf8Len (c :: t) = c.utf8Size + utf8Len t := rfl
    rw [hlen]
    obtain ⟨k, hk⟩ : ∃ k, c.utf8Size + utf8Len t = k + 1 := ⟨c.utf8Size + utf8Len t - 1, by omega⟩
    rw [hk, readExactBytes.eq_def]
    have hle : c.utf8Size ≤ k + 1 := by omega
    have hsub : k + 1 - c.utf8Size = utf8Len t := by omega
    simp only [List.cons_append, hle, if_true, hsub, ih]

theorem readHeaderLoop_line (fuel : Nat) (cl : Option Nat) (l1 r : List Char)
    (h0 : l1 ≠ []) (hnl : '\n' ∉ l1)
    (hne : dropTrailingCrLf (l1 ++ ['\n']) ≠ []) :
    readHeaderLoop (fuel + 1) cl (l1 ++ '\n' :: r) =
      (match stripPre clKey (dropTrailingCrLf (l1 ++ ['\n'])) with
       | some v => readHeaderLoop fuel (parseUsize (rustTrim v)) r
       | none => readHeaderLoop fuel cl r) := by
  cases l1 with
  | nil => exact absurd rfl h0
  | cons a t => exact readHeaderLoop_step fuel cl a t r hnl hne

/-- Claim C2: for every JSON value v, writing v with `write_message` and then
reading the produced byte stream with `read_message` yields `Ok(Some v')`
with v' deep-equal to v, consuming exactly the bytes that were written, so
successive messages on one stream round-trip independently (the arbitrary
`rest` is returned untouched). -/
theorem C2_frame_roundtrip (v : Json) (rest : List Char) :
    read_message (write_message v ++ rest) = .ok (some (v, rest)) := by
  have hp : ("Content-Length: ").toList = clKey ++ [' '] := rfl
  obtain ⟨td, dd, hDcat, hddig⟩ := natToDigits_concat (utf8Len (serV v))
  set D := natToDigits (utf8Len (serV v)) with hD
  set B := serV v with hB
  set R1 : List Char := '\r' :: '\n' :: (B ++ rest) with hR1
  set L1 : List Char := clKey ++ (' ' :: (D ++ ['\r'])) with hL1
  have hck : clKey ≠ [] := by decide
  have hinput : write_message v ++ rest = L1 ++ '\n' :: R1 := by
    simp only [write_message, hp, hL1, hR1, ← hB, ← hD]
    simp [List.append_assoc]
  have h0 : L1 ≠ [] := by
    rw [hL1]
    simp [hck]
  have hnl : '\n' ∉ L1 := by
    rw [hL1]
    intro hm
    rcases List.mem_append.mp hm with h | h
    · revert h
      decide
    · rcases List.mem_cons.mp h with h | h
      · exact absurd h (by decide)
      · rcases List.mem_append.mp h with h | h
        · have hdg := natToDigits_all_digit (utf8Len (serV v)) '\n' h
          exact absurd hdg (by decide)
        · revert h
          decide
  have htrim : dropTrailingCrLf (L1 ++ ['\n']) = clKey ++ (' ' :: D) := by
    have h1 : L1 ++ ['\n'] = (clKey ++ (' ' :: D)) ++ ['\r', '\n'] := by
      rw [hL1]
      simp [List.append_assoc]
    rw [h1, dropTrailingCrLf_crlf]
    have hdd : (dd = '\r' ∨ dd = '\n') = False := by
      refine eq_false ?_
      rintro (rfl | rfl) <;> exact absurd hddig (by decide)
    have h2 : clKey ++ (' ' :: D) = (clKey ++ (' ' :: td)) ++ [dd] := by
      rw [hDcat]
      simp [List.append_assoc]
    rw [h2, dropTrailingCrLf_last _ hdd, ← h2]
  have hne : dropTrailingCrLf (L1 ++ ['\n']) ≠ [] := by
    rw [htrim]
    simp [hck]
  have hstrip : stripPre clKey (clKey ++ (' ' :: D)) = some (' ' :: D) :=
    stripPre_self_append clKey (' ' :: D)
  have htrim2 : rustTrim (' ' :: D) = D := by
    have h1 : (' ' :: D) = [' '] ++ D ++ [] := by simp
    rw [h1]
    refine rustTrim_padded ?_ ?_ ?_ ?_
    · intro c hc
      simp at hc
      subst hc
      decide
    · intro c hc
      simp at hc
    · intro c hc
      exact digit_not_rustWs (natToDigits_all_digit _ c hc)
    · rw [hD]
      exact natToDigits_ne_nil _
  have hparse : parseUsize D = some (utf8Len (serV v)) := parseUsize_natToDigits _
  simp only [read_message, hinput]
  rw [readHeaderLoop_line _ none L1 R1 h0 hnl hne, htrim, hstrip]
  simp only [htrim2, hparse]
  have hflen : (L1 ++ '\n' :: R1).length = (L1.length + R1.length) + 1 := by
    simp only [List.length_append, List.length_cons]
    omega
  rw [hflen]
  rw [hR1, readHeaderLoop_blank]
  have hread : readExactBytes (B ++ rest) (utf8Len (serV v)) = some (B, rest) := by
    rw [hB]
    exact readExactBytes_utf8 (serV v) rest
  simp only [hread, hB, from_str_serV]

theorem dropWhile_all_false {p : Char → Bool} (l : List Char)
    (h : ∀ c ∈ l, p c = false) : l.dropWhile p = l := by
  cases l with
  | nil => rfl
  | cons c t => exact dropWhile_cons_false t (h c (List.mem_cons_self c t))

theorem dropTrailingCrLf_all (l : List Char)
    (h : ∀ c ∈ l, c ≠ '\r' ∧ c ≠ '\n') : dropTrailingCrLf l = l := by
  rw [dropTrailingCrLf, dropWhile_all_false, List.reverse_reverse]
  intro c hc
  have hm := h c (List.mem_reverse.mp hc)
  simp [hm.1, hm.2]

theorem read_message_padded (a b body rest : List Char)
    (ha : ∀ c ∈ a, c = ' ' ∨ c = '\t') (hb : ∀ c ∈ b, c = ' ' ∨ c = '\t') :
    read_message (clKey ++ (a ++ (natToDigits (utf8Len body) ++
        (b ++ ('\r' :: '\n' :: '\r' :: '\n' :: (body ++ rest)))))) =
      (match from_str body with
       | some v => .ok (some (v, rest))
       | none => .error .invalidData) := by
  have hck : clKey ≠ [] := by decide
  set D := natToDigits (utf8Len body) with hD
  set R1 : List Char := '\r' :: '\n' :: (body ++ rest) with hR1
  set L1 : List Char := clKey ++ (a ++ (D ++ (b ++ ['\r']))) with hL1
  have hinput : clKey ++ (a ++ (D ++ (b ++ ('\r' :: '\n' :: R1)))) = L1 ++ '\n' :: R1 := by
    rw [hL1]
    simp [List.append_assoc]
  have h0 : L1 ≠ [] := by
    rw [hL1]
    simp [hck]
  have hwsa : ∀ c ∈ a, rustWs c = true := by
    intro c hc
    rcases ha c hc with rfl | rfl <;> decide
  have hwsb : ∀ c ∈ b, rustWs c = true := by
    intro c hc
    rcases hb c hc with rfl | rfl <;> decide
  have hnl : '\n' ∉ L1 := by
    rw [hL1]
    intro hm
    rcases List.mem_append.mp hm with h | h
    · revert h
      decide
    · rcases List.mem_append.mp h with h | h
      · rcases ha _ h with h' | h' <;> exact absurd h' (by decide)
      · rcases List.mem_append.mp h with h | h
        · exact absurd (natToDigits_all_digit (utf8Len body) '\n' h) (by decide)
        · rcases List.mem_append.mp h with h | h
          · rcases hb _ h with h' | h' <;> exact absurd h' (by decide)
          · revert h
            decide
  have htrim : dropTrailingCrLf (L1 ++ ['\n']) = clKey ++ (a ++ (D ++ b)) := by
    have h1 : L1 ++ ['\n'] = (clKey ++ (a ++ (D ++ b))) ++ ['\r', '\n'] := by
      rw [hL1]
      simp [List.append_assoc]
    rw [h1, dropTrailingCrLf_crlf]
    refine dropTrailingCrLf_all _ ?_
    intro c hc
    rcases List.mem_append.mp hc with h | h
    · constructor <;> · intro he; subst he; revert h; decide
    · rcases List.mem_append.mp h with h | h
      · rcases ha _ h with rfl | rfl <;> exact ⟨by decide, by decide⟩
      · rcases List.mem_append.mp h with h | h
        · have hdg := natToDigits_all_digit (utf8Len body) c h
          exact ⟨ne_of_digit_not hdg (by decide), ne_of_digit_not hdg (by decide)⟩
        · rcases hb _ h with rfl | rfl <;> exact ⟨by decide, by decide⟩
  have hne : dropTrailingCrLf (L1 ++ ['\n']) ≠ [] := by
    rw [htrim]
    simp [hck]
  have hstrip : stripPre clKey (clKey ++ (a ++ (D ++ b))) = some (a ++ (D ++ b)) :=
    stripPre_self_append clKey _
  have htrim2 : rustTrim (a ++ (D ++ b)) = D := by
    have h1 : a ++ (D ++ b) = a ++ D ++ b := by simp [List.append_assoc]
    rw [h1]
    refine rustTrim_padded hwsa hwsb ?_ ?_
    · intro c hc
      exact digit_not_rustWs (natToDigits_all_digit _ c hc)
    · rw [hD]
      exact natToDigits_ne_nil _
  have hparse : parseUsize D = some (utf8Len body) := parseUsize_natToDigits _
  rw [show clKey ++ (a ++ (D ++ (b ++ ('\r' :: '\n' :: '\r' :: '\n' :: (body ++ rest)))))
      = clKey ++ (a ++ (D ++ (b ++ ('\r' :: '\n' :: R1)))) from by rw [hR1]]
  simp only [read_message, hinput]
  rw [readHeaderLoop_line _ none L1 R1 h0 hnl hne, htrim, hstrip]
  simp only [htrim2, hparse]
  have hflen : (L1 ++ '\n' :: R1).length = (L1.length + R1.length) + 1 := by
    simp only [List.length_append, List.length_cons]
    omega
  rw [hflen]
  rw [hR1, readHeaderLoop_blank]
  have hread : readExactBytes (body ++ rest) (utf8Len body) = some (body, rest) :=
    readExactBytes_utf8 body rest
  simp only [hread]

theorem readHeaderLoop_nil (fuel : Nat) (cl : Option Nat) :
    readHeaderLoop fuel cl [] = none := by
  cases fuel <;> rfl

theorem dropTrailingCrLf_lf (l : List Char) (h : ∀ c ∈ l, c ≠ '\r' ∧ c ≠ '\n') :
    dropTrailingCrLf (l ++ ['\n']) = l := by
  rw [dropTrailingCrLf]
  have h1 : (l ++ ['\n']).reverse = '\n' :: l.reverse := by simp
  rw [h1, List.dropWhile_cons, if_pos (by decide)]
  rw [dropWhile_all_false, List.reverse_reverse]
  intro c hc
  have hm := h c (List.mem_reverse.mp hc)
  simp [hm.1, hm.2]

theorem read_message_eof_after_line (l1 : List Char) (h0 : l1 ≠ [])
    (hnl : '\n' ∉ l1) (hne : dropTrailingCrLf (l1 ++ ['\n']) ≠ []) :
    read_message (l1 ++ ['\n']) = .ok none := by
  have hsh : l1 ++ ['\n'] = l1 ++ '\n' :: ([] : List Char) := rfl
  simp only [read_message, hsh]
  rw [readHeaderLoop_line _ none l1 [] h0 hnl hne]
  cases hstrip : stripPre clKey (dropTrailingCrLf (l1 ++ ['\n'])) <;>
    simp [readHeaderLoop_nil]

theorem read_message_empty_header (rest : List Char) :
    read_message ('\r' :: '\n' :: rest) = .error .invalidData := by
  simp only [read_message]
  have hflen : ('\r' :: '\n' :: rest).length + 1 = (rest.length + 2) + 1 := by
    simp
  rw [hflen, readHeaderLoop_blank]

theorem read_message_no_header (l1 rest : List Char) (h0 : l1 ≠ [])
    (hnl : '\n' ∉ l1) (hcr : ∀ c ∈ l1, c ≠ '\r' ∧ c ≠ '\n')
    (hnk : stripPre clKey l1 = none) :
    read_message (l1 ++ '\n' :: ('\r' :: '\n' :: rest)) = .error .invalidData := by
  have htrim : dropTrailingCrLf (l1 ++ ['\n']) = l1 := dropTrailingCrLf_lf l1 hcr
  have hne : dropTrailingCrLf (l1 ++ ['\n']) ≠ [] := by
    rw [htrim]
    exact h0
  simp only [read_message]
  rw [readHeaderLoop_line _ none l1 _ h0 hnl hne, htrim, hnk]
  have hflen : (l1 ++ '\n' :: ('\r' :: '\n' :: rest)).length = (l1.length + rest.length + 2) + 1 := by
    simp only [List.length_append, List.length_cons]
    omega
  rw [hflen, readHeaderLoop_blank]

/-- Claim C5 counterexample: the claim says `Ok(None)` is returned exactly
when the stream closes before any header bytes are read, but a stream that
delivers a whole header line (19 bytes) and then closes also yields
`Ok(None)`. -/
theorem C5_counterexample :
    read_message (("Content-Length: 5\r\n").toList) = .ok none ∧
      ("Content-Length: 5\r\n").toList ≠ [] := by
  constructor
  · have heq : ("Content-Length: 5\r\n").toList = ("Content-Length: 5\r").toList ++ ['\n'] := by
      decide
    rw [heq]
    exact read_message_eof_after_line _ (by decide) (by decide) (by decide)
  · decide

/-- Claim C5 (amended): `read_message` returns `Ok(None)` when the stream is
empty and, more generally, whenever a line read hits the end of the stream
before the header-terminating blank line (not only when no header bytes were
read); it tolerates whitespace around the declared length value; and it
fails with a decoding error when the header block ends with no
`Content-Length` header or when the declared number of body bytes is not
valid JSON. -/
theorem C5_read_message_amended :
    read_message [] = .ok none ∧
    (∀ l1 : List Char, l1 ≠ [] → '\n' ∉ l1 →
      dropTrailingCrLf (l1 ++ ['\n']) ≠ [] →
      read_message (l1 ++ ['\n']) = .ok none) ∧
    (∀ (a b : List Char) (v : Json) (rest : List Char),
      (∀ c ∈ a, c = ' ' ∨ c = '\t') → (∀ c ∈ b, c = ' ' ∨ c = '\t') →
      read_message (clKey ++ (a ++ (natToDigits (utf8Len (serV v)) ++
          (b ++ ('\r' :: '\n' :: '\r' :: '\n' :: (serV v ++ rest)))))) =
        .ok (some (v, rest))) ∧
    (∀ rest : List Char, read_message ('\r' :: '\n' :: rest) = .error .invalidData) ∧
    (∀ l1 rest : List Char, l1 ≠ [] → '\n' ∉ l1 →
      (∀ c ∈ l1, c ≠ '\r' ∧ c ≠ '\n') → stripPre clKey l1 = none →
      read_message (l1 ++ '\n' :: ('\r' :: '\n' :: rest)) = .error .invalidData) ∧
    (∀ body rest : List Char, from_str body = none →
      read_message (clKey ++ ([' '] ++ (natToDigits (utf8Len body) ++
          ([] ++ ('\r' :: '\n' :: '\r' :: '\n' :: (body ++ rest)))))) =
        .error .invalidData) := by
  refine ⟨rfl, read_message_eof_after_line, ?_, read_message_empty_header,
    read_message_no_header, ?_⟩
  · intro a b v rest ha hb
    rw [read_message_padded a b (serV v) rest ha hb, from_str_serV]
  · intro body rest hbad
    have ha : ∀ c ∈ [' '], c = ' ' ∨ c = '\t' := by
      intro c hc
      simp at hc
      exact Or.inl hc
    have hb : ∀ c ∈ ([] : List Char), c = ' ' ∨ c = '\t' := by
      intro c hc
      simp at hc
    rw [read_message_padded [' '] [] body rest ha hb, hbad]

/-- Claim C5 witness: concrete instances of the amended theorem — a padded
header with a two-space gap parses an empty array body, and a stream whose
only header line is not `Content-Length` fails with a decoding error. -/
theorem C5_read_message_amended_witness :
    read_message (("Content-Length:  2\r\n\r\n[]").toList) = .ok (some (.arr [], [])) ∧
      read_message (("X: 1\n\r\n").toList) = .error .invalidData := by
  constructor
  · have hser : serV (Json.arr []) = ['[', ']'] := by simp [serV]
    have hdig : natToDigits (utf8Len (serV (Json.arr []))) = ['2'] := by
      rw [hser]
      show natToDigits 2 = ['2']
      rw [natToDigits.eq_def]
      decide
    have h := (C5_read_message_amended).2.2.1 [' ', ' '] [] (Json.arr []) [] (by decide)
      (by decide)
    rw [hdig, hser] at h
    have heq : ("Content-Length:  2\r\n\r\n[]").toList =
        clKey ++ ([' ', ' '] ++ (['2'] ++
          ([] ++ ('\r' :: '\n' :: '\r' :: '\n' :: (['[', ']'] ++ []))))) := by
      decide
    rw [heq]
    exact h
  · have h := (C5_read_message_amended).2.2.2.2.1 (("X: 1").toList) [] (by decide)
      (by decide) (by decide) (by decide)
    have heq : ("X: 1\n\r\n").toList = ("X: 1").toList ++ '\n' :: ('\r' :: '\n' :: []) := by
      decide
    rw [heq]
    exact h

theorem removeEntry_of_mem (table : List (Nat × Nat)) (i : Nat)
    (h : i ∈ table.map Prod.fst) :
    ∃ ch t', removeEntry table i = some (ch, t') ∧ table.Perm ((i, ch) :: t') := by
  induction table with
  | nil => simp at h
  | cons e rest ih =>
    obtain ⟨k, c0⟩ := e
    by_cases hk : k = i
    · subst hk
      exact ⟨c0, rest, by simp [removeEntry], List.Perm.refl _⟩
    · have hmem : i ∈ rest.map Prod.fst := by
        simp only [List.map_cons, List.mem_cons] at h
        rcases h with h | h
        · exact absurd h.symm hk
        · exact h
      obtain ⟨ch, t', hrm, hperm⟩ := ih hmem
      refine ⟨ch, (k, c0) :: t', by simp [removeEntry, hk, hrm], ?_⟩
      exact (hperm.cons (k, c0)).trans (List.Perm.swap (i, ch) (k, c0) t')

theorem readerLoop_resolves (ids : List Nat) :
    ∀ (table : List (Nat × Nat)) (resp : Nat → Json),
      ids.Perm (table.map Prod.fst) →
      (∀ i ∈ ids, ((resp i).get idKey).bind as_u64 = some i) →
      ((readerLoop table (ids.map (fun i => ReadEvent.msg (resp i)))).2.1.Perm
        (table.map (fun e => (e.2, resp e.1)))) ∧
      (readerLoop table (ids.map (fun i => ReadEvent.msg (resp i)))).1 = [] := by
  induction ids with
  | nil =>
    intro table resp hperm _
    have h1 : table.map Prod.fst = [] := hperm.symm.eq_nil
    have h2 : table = [] := List.map_eq_nil_iff.mp h1
    subst h2
    exact ⟨List.Perm.refl _, rfl⟩
  | cons i ids' ih =>
    intro table resp hperm hresp
    have hmem : i ∈ table.map Prod.fst := hperm.mem_iff.mp (List.mem_cons_self i ids')
    obtain ⟨ch, t', hrm, hpermT⟩ := removeEntry_of_mem table i hmem
    have hstep : readerStep table (resp i) = ⟨t', some (ch, resp i), []⟩ := by
      simp [readerStep, hresp i (List.mem_cons_self i ids'), hrm]
    have hperm' : ids'.Perm (t'.map Prod.fst) := by
      have h1 : (table.map Prod.fst).Perm (((i, ch) :: t').map Prod.fst) := hpermT.map Prod.fst
      have h2 : (i :: ids').Perm (i :: t'.map Prod.fst) := by
        refine hperm.trans ?_
        simpa using h1
      exact h2.cons_inv
    obtain ⟨hdel, hpend⟩ := ih t' resp hperm' (fun j hj => hresp j (List.mem_cons_of_mem i hj))
    constructor
    · show ((readerLoop table (ReadEvent.msg (resp i) :: ids'.map (fun j => ReadEvent.msg (resp j)))).2.1).Perm _
      simp only [readerLoop, hstep, Option.toList_some, List.singleton_append]
      have hmapT : (table.map (fun e => (e.2, resp e.1))).Perm
          ((ch, resp i) :: t'.map (fun e => (e.2, resp e.1))) := by
        simpa using hpermT.map (fun e => (e.2, resp e.1))
      exact ((hdel.cons (ch, resp i)).trans hmapT.symm)
    · simp only [readerLoop, hstep]
      exact hpend

theorem issueRequests_id_bounds (chans : List Nat) :
    ∀ (next : Nat), ∀ i ∈ (issueRequests next chans).map Prod.fst,
      next < i ∧ i ≤ next + chans.length := by
  induction chans with
  | nil =>
    intro next i hi
    simp [issueRequests] at hi
  | cons ch rest ih =>
    intro next i hi
    simp only [issueRequests, List.map_cons, List.mem_cons] at hi
    rcases hi with hi | hi
    · subst hi
      simp
    · have := ih (next + 1) i hi
      constructor
      · omega
      · simp only [List.length_cons]
        omega

theorem issueRequests_nodup (chans : List Nat) :
    ∀ (next : Nat), ((issueRequests next chans).map Prod.fst).Nodup := by
  induction chans with
  | nil => intro next; simp [issueRequests]
  | cons ch rest ih =>
    intro next
    simp only [issueRequests, List.map_cons, List.nodup_cons]
    refine ⟨?_, ih (next + 1)⟩
    intro hmem
    have := issueRequests_id_bounds rest (next + 1) (next + 1) hmem
    omega

/-- Claim C1: for N requests issued concurrently through send_request, the
allocated ids (one per caller channel, counter `fetch_add(1) + 1`) are all
distinct, and when the reader receives one response frame per request, in
any order (any permutation of the ids, including reverse), the deliveries
are exactly one per caller — each caller's channel receives the full
response message whose numeric id is the id that call allocated, passed
through unmodified, and never a response belonging to another caller; every
pending entry is removed. -/
theorem C1_request_response_correlation (start : Nat) (chans : List Nat)
    (resp : Nat → Json) (ids : List Nat)
    (hperm : ids.Perm ((issueRequests start chans).map Prod.fst))
    (hresp : ∀ i ∈ ids, ((resp i).get idKey).bind as_u64 = some i) :
    ((issueRequests start chans).map Prod.fst).Nodup ∧
    ((readerLoop (issueRequests start chans)
        (ids.map (fun i => ReadEvent.msg (resp i)))).2.1.Perm
      ((issueRequests start chans).map (fun e => (e.2, resp e.1)))) ∧
    (readerLoop (issueRequests start chans)
        (ids.map (fun i => ReadEvent.msg (resp i)))).1 = [] := by
  obtain ⟨hdel, hpend⟩ := readerLoop_resolves ids (issueRequests start chans) resp hperm hresp
  exact ⟨issueRequests_nodup chans start, hdel, hpend⟩

/-- Claim C1 witness: two callers (channels 10 and 20) issue requests from
counter 0, allocating ids 1 and 2; the responses, carrying an `error` member
and delivered in reverse order, reach exactly their own callers. -/
theorem C1_request_response_correlation_witness :
    ((issueRequests 0 [10, 20]).map Prod.fst).Nodup ∧
    ((readerLoop (issueRequests 0 [10, 20])
        ([2, 1].map (fun i => ReadEvent.msg
          (Json.obj [(idKey, Json.num (i : Int)),
            (("error").toList, Json.str (("boom").toList))])))).2.1.Perm
      ((issueRequests 0 [10, 20]).map (fun e => (e.2,
        Json.obj [(idKey, Json.num (e.1 : Int)),
          (("error").toList, Json.str (("boom").toList))])))) ∧
    (readerLoop (issueRequests 0 [10, 20])
        ([2, 1].map (fun i => ReadEvent.msg
          (Json.obj [(idKey, Json.num (i : Int)),
            (("error").toList, Json.str (("boom").toList))])))).1 = [] :=
  C1_request_response_correlation 0 [10, 20]
    (fun i => Json.obj [(idKey, Json.num (i : Int)),
      (("error").toList, Json.str (("boom").toList))])
    [2, 1] (by decide) (by decide)

/-- Claim C6: a successfully parsed frame carrying a `method` and no `id`
never resolves any pending request (the table is unchanged and no channel
send happens); its `params` payload is emitted verbatim as a diagnostics
event exactly once when the method is textDocument/publishDiagnostics (and
it has a `params` member), any other method is silently discarded; and the
reader loop continues with the following events either way. -/
theorem C6_notification_routing (p : List (Nat × Nat)) (msg : Json) (m : List Char)
    (hid : msg.get idKey = none)
    (hm : (msg.get methodKey).bind as_str = some m) :
    (readerStep p msg).pending' = p ∧
    (readerStep p msg).sent = none ∧
    (readerStep p msg).emitted =
      (if m = diagMethod then (msg.get paramsKey).toList else []) ∧
    (∀ events : List ReadEvent,
      (readerLoop p (ReadEvent.msg msg :: events)).2.1 = (readerLoop p events).2.1 ∧
      (readerLoop p (ReadEvent.msg msg :: events)).1 = (readerLoop p events).1 ∧
      (readerLoop p (ReadEvent.msg msg :: events)).2.2 =
        (if m = diagMethod then (msg.get paramsKey).toList else [])
          ++ (readerLoop p events).2.2) := by
  have hstep : readerStep p msg =
      ⟨p, none, if m = diagMethod then (msg.get paramsKey).toList else []⟩ := by
    by_cases hdm : m = diagMethod
    · cases hp : msg.get paramsKey with
      | none => simp [readerStep, hid, hm, hdm, hp]
      | some params => simp [readerStep, hid, hm, hdm, hp]
    · simp [readerStep, hid, hm, hdm]
  refine ⟨by rw [hstep], by rw [hstep], by rw [hstep], ?_⟩
  intro events
  refine ⟨?_, ?_, ?_⟩ <;> simp [readerLoop, hstep]

/-- Claim C6 witness: a publishDiagnostics notification with no id forwards
its params exactly once without touching the one pending entry, and an
unknown notification is discarded while the loop continues. -/
theorem C6_notification_routing_witness :
    (readerStep [(1, 7)] (Json.obj [(methodKey, Json.str diagMethod),
        (paramsKey, Json.num 5)])).pending' = [(1, 7)] ∧
    (readerStep [(1, 7)] (Json.obj [(methodKey, Json.str diagMethod),
        (paramsKey, Json.num 5)])).sent = none ∧
    (readerStep [(1, 7)] (Json.obj [(methodKey, Json.str diagMethod),
        (paramsKey, Json.num 5)])).emitted =
      (if diagMethod = diagMethod then
        ((Json.obj [(methodKey, Json.str diagMethod),
          (paramsKey, Json.num 5)]).get paramsKey).toList else []) := by
  have h := C6_notification_routing [(1, 7)]
    (Json.obj [(methodKey, Json.str diagMethod), (paramsKey, Json.num 5)])
    diagMethod rfl rfl
  exact ⟨h.1, h.2.1, h.2.2.1⟩

/-- Claim C3 counterexample: with a pending request registered, a malformed
frame followed by that request's well-formed response delivers nothing (the
loop exited at the failure), while without the malformed frame the same
response is delivered — so a single decoding failure does stop delivery of
later responses, contrary to the claim. -/
theorem C3_counterexample :
    (readerLoop [(1, 7)] [ReadEvent.failure,
        ReadEvent.msg (Json.obj [(idKey, Json.num 1)])]).2.1 = [] ∧
      (readerLoop [(1, 7)] [ReadEvent.msg (Json.obj [(idKey, Json.num 1)])]).2.1 =
        [(7, Json.obj [(idKey, Json.num 1)])] :=
  ⟨rfl, rfl⟩

/-- Claim C3 (amended): the reader loop `while let Ok(Some(..))` terminates
at the first decoding failure exactly as at clean end of stream: no frame
after the failure is processed, no response is delivered past it, the
pending table is left as it was, and the loop itself logs nothing. -/
theorem C3_reader_stops_on_failure (p : List (Nat × Nat)) (events : List ReadEvent) :
    readerLoop p (ReadEvent.failure :: events) = (p, [], []) ∧
      readerLoop p (ReadEvent.eof :: events) = (p, [], []) :=
  ⟨rfl, rfl⟩

/-- Claim C4 counterexample: a request registered on an empty table times
out (the call returns the timeout error), yet its pending-table entry is
still present afterwards — `send_request` has no removal on the timeout
path, so with no response ever arriving the slot leaks, contradicting
removal exactly once by the timing-out caller or by a late response. -/
theorem C4_counterexample :
    (send_request_timeout [] 0 7).2.2.2 =
        .error (("Timeout waiting for LS response").toList) ∧
      (send_request_timeout [] 0 7).1 = [(1, 7)] ∧
      removeEntry (send_request_timeout [] 0 7).1 1 ≠ none := by
  refine ⟨rfl, rfl, ?_⟩
  intro h
  rw [show removeEntry (send_request_timeout [] 0 7).1 1 = some (7, []) from rfl] at h
  exact Option.noConfusion h

/-- Claim C4 (amended): a request whose response never arrives fails with
the timeout error after the fixed 15-second `recv_timeout`; the timing-out
caller does not remove its pending entry — the entry stays in the table, and
only a later response with that id removes it, at which point the message is
sent to the abandoned channel and, the receiver being dropped, reaches no
live caller; if no such response ever arrives the entry persists. -/
theorem C4_timeout_slot_leak (pending : List (Nat × Nat)) (nextId ch : Nat) :
    (send_request_timeout pending nextId ch).2.2.1 = LS_REQUEST_TIMEOUT_SECONDS ∧
    LS_REQUEST_TIMEOUT_SECONDS = 15 ∧
    (send_request_timeout pending nextId ch).2.2.2 =
      .error (("Timeout waiting for LS response").toList) ∧
    (send_request_timeout pending nextId ch).1 = (nextId + 1, ch) :: pending ∧
    (∀ resp : Json, ((resp.get idKey).bind as_u64 = some (nextId + 1)) →
      (readerStep ((nextId + 1, ch) :: pending) resp).pending' = pending ∧
      (readerStep ((nextId + 1, ch) :: pending) resp).sent = some (ch, resp) ∧
      ∀ live : List Nat, ch ∉ live →
        deliveredTo live (readerStep ((nextId + 1, ch) :: pending) resp).sent = none) := by
  refine ⟨rfl, rfl, rfl, rfl, ?_⟩
  intro resp hresp
  have hstep : readerStep ((nextId + 1, ch) :: pending) resp =
      ⟨pending, some (ch, resp), []⟩ := by
    simp [readerStep, hresp, removeEntry]
  refine ⟨by rw [hstep], by rw [hstep], ?_⟩
  intro live hlive
  rw [hstep]
  simp [deliveredTo, hlive]

/-- Claim C4 witness: the amended statement at a concrete timed-out request
(id 1, channel 7) and a concrete late response, which removes the entry but
reaches no live receiver. -/
theorem C4_timeout_slot_leak_witness :
    (send_request_timeout [] 0 7).1 = (0 + 1, 7) :: [] ∧
      (readerStep ((0 + 1, 7) :: []) (Json.obj [(idKey, Json.num 1)])).pending' = [] ∧
      deliveredTo [] (readerStep ((0 + 1, 7) :: [])
        (Json.obj [(idKey, Json.num 1)])).sent = none := by
  have h := C4_timeout_slot_leak [] 0 7
  have h5 := h.2.2.2.2 (Json.obj [(idKey, Json.num 1)]) rfl
  exact ⟨h.2.2.2.1, h5.1, h5.2.2 [] (by decide)⟩

theorem stopAttempts_mem_shape (sid : Nat) (child : Nat → TryWaitRes) :
    ∀ (r i : Nat), ∀ a ∈ (stopAttempts sid child r i).1,
      a = SupAction.pollExited sid ∨ a = SupAction.pollRunning sid ∨
        a = SupAction.pollErr sid ∨ a = SupAction.sleepMs LS_STOP_WAIT_INTERVAL_MS := by
  intro r
  induction r with
  | zero =>
    intro i a ha
    simp [stopAttempts] at ha
  | succ r ih =>
    intro i a ha
    rw [stopAttempts] at ha
    cases hc : child i with
    | exited =>
      rw [hc] at ha
      simp at ha
      subst ha
      exact Or.inl rfl
    | running =>
      rw [hc] at ha
      simp only [List.mem_cons] at ha
      rcases ha with rfl | rfl | ha
      · exact Or.inr (Or.inl rfl)
      · exact Or.inr (Or.inr (Or.inr rfl))
      · exact ih (i + 1) a ha
    | ioErr =>
      rw [hc] at ha
      simp at ha
      subst ha
      exact Or.inr (Or.inr (Or.inl rfl))

theorem stopAttempts_exit_mem (sid : Nat) (child : Nat → TryWaitRes) :
    ∀ (r i : Nat), (stopAttempts sid child r i).2 = true →
      SupAction.pollExited sid ∈ (stopAttempts sid child r i).1 := by
  intro r
  induction r with
  | zero =>
    intro i h
    simp [stopAttempts] at h
  | succ r ih =>
    intro i h
    rw [stopAttempts] at h ⊢
    cases hc : child i with
    | exited => simp [hc]
    | running =>
      rw [hc] at h
      simp only at h
      simp only [hc, List.mem_cons]
      exact Or.inr (Or.inr (ih (i + 1) h))
    | ioErr =>
      rw [hc] at h
      simp at h

theorem pollCount_append (sid : Nat) (x y : List SupAction) :
    pollCount sid (x ++ y) = pollCount sid x + pollCount sid y := by
  induction x with
  | nil => simp [pollCount]
  | cons a t ih =>
    cases a <;> simp [pollCount, ih] <;> omega

theorem stopAttempts_pollCount (sid : Nat) (child : Nat → TryWaitRes) :
    ∀ (r i : Nat), pollCount sid (stopAttempts sid child r i).1 ≤ r := by
  intro r
  induction r with
  | zero =>
    intro i
    simp [stopAttempts, pollCount]
  | succ r ih =>
    intro i
    rw [stopAttempts]
    cases hc : child i with
    | exited => simp [pollCount]
    | running =>
      have hr := ih (i + 1)
      simp [pollCount]
      omega
    | ioErr => simp [pollCount]

theorem stop_process_terminates (sid : Nat) (child : Nat → TryWaitRes) :
    SupAction.pollExited sid ∈ stop_process sid child ∨
      SupAction.kill sid ∈ stop_process sid child := by
  rw [stop_process]
  cases hsnd : (stopAttempts sid child LS_STOP_WAIT_ATTEMPTS 0).2 with
  | true =>
    left
    simp only [List.mem_cons, List.mem_append]
    exact Or.inr (Or.inr (Or.inl (stopAttempts_exit_mem sid child _ 0 hsnd)))
  | false =>
    right
    simp [hsnd]

/-- Claim C7: at most one Session is live at a time — when `ls_start` runs
with a Session installed, the whole `stop_process` sequence of the old
session (which always ends with it observed exited or force-killed) comes
before the new child is spawned and installed, and the resulting state holds
at most the one new session (none if spawning failed). -/
theorem C7_single_active_session (st : SupState) (oldChild : Nat → TryWaitRes)
    (old newSid : Nat) (spawnOk : Bool) (hs : st.session = some old) :
    (ls_start st oldChild newSid spawnOk).2 =
      SupAction.incrementRunId :: (stop_process old oldChild ++
        (if spawnOk then [SupAction.spawnChild newSid, SupAction.installSession newSid]
         else [])) ∧
    (SupAction.pollExited old ∈ stop_process old oldChild ∨
      SupAction.kill old ∈ stop_process old oldChild) ∧
    (ls_start st oldChild newSid spawnOk).1.session =
      (if spawnOk then some newSid else none) ∧
    (ls_start st oldChild newSid spawnOk).1.runId = st.runId + 1 := by
  refine ⟨?_, stop_process_terminates old oldChild, ?_, ?_⟩ <;>
    cases spawnOk <;> simp [ls_start, hs]

/-- Claim C7 witness: starting over an installed session 1 whose child never
exits force-kills it strictly before the spawn of session 2, and leaves
exactly session 2 installed. -/
theorem C7_single_active_session_witness :
    (ls_start ⟨some 1, 0⟩ (fun _ => TryWaitRes.running) 2 true).2 =
      SupAction.incrementRunId :: (stop_process 1 (fun _ => TryWaitRes.running) ++
        (if true then [SupAction.spawnChild 2, SupAction.installSession 2] else [])) ∧
    (SupAction.pollExited 1 ∈ stop_process 1 (fun _ => TryWaitRes.running) ∨
      SupAction.kill 1 ∈ stop_process 1 (fun _ => TryWaitRes.running)) ∧
    (ls_start ⟨some 1, 0⟩ (fun _ => TryWaitRes.running) 2 true).1.session =
      (if true then some 2 else none) ∧
    (ls_start ⟨some 1, 0⟩ (fun _ => TryWaitRes.running) 2 true).1.runId = 0 + 1 :=
  C7_single_active_session ⟨some 1, 0⟩ (fun _ => TryWaitRes.running) 1 2 true rfl

/-- Claim C8: `shutdown` bumps the generation counter first, then (when a
session is installed) sends the shutdown request and the exit notification
— best-effort, their results are discarded — then polls `try_wait` at the
fixed 50 ms interval for at most 10 attempts, force-kills exactly when no
exit was observed, and in every case leaves the supervisor with no installed
session. -/
theorem C8_shutdown_sequence (st : SupState) (child : Nat → TryWaitRes) :
    (ls_shutdown st child).1.session = none ∧
    (ls_shutdown st child).1.runId = st.runId + 1 ∧
    (st.session = none → (ls_shutdown st child).2 = [SupAction.incrementRunId]) ∧
    (∀ sid, st.session = some sid →
      (ls_shutdown st child).2 =
        SupAction.incrementRunId :: SupAction.sendShutdownRequest sid ::
          SupAction.sendExitNotification sid ::
          ((stopAttempts sid child LS_STOP_WAIT_ATTEMPTS 0).1 ++
            (if (stopAttempts sid child LS_STOP_WAIT_ATTEMPTS 0).2 then []
             else [SupAction.kill sid])) ∧
      pollCount sid (ls_shutdown st child).2 ≤ LS_STOP_WAIT_ATTEMPTS ∧
      LS_STOP_WAIT_ATTEMPTS = 10 ∧
      (∀ ms, SupAction.sleepMs ms ∈ (ls_shutdown st child).2 →
        ms = LS_STOP_WAIT_INTERVAL_MS) ∧
      LS_STOP_WAIT_INTERVAL_MS = 50 ∧
      ((stopAttempts sid child LS_STOP_WAIT_ATTEMPTS 0).2 = false →
        SupAction.kill sid ∈ (ls_shutdown st child).2) ∧
      ((stopAttempts sid child LS_STOP_WAIT_ATTEMPTS 0).2 = true →
        SupAction.kill sid ∉ (ls_shutdown st child).2)) := by
  refine ⟨?_, ?_, ?_, ?_⟩
  · cases hs : st.session <;> simp [ls_shutdown, hs]
  · cases hs : st.session <;> simp [ls_shutdown, hs]
  · intro hs
    simp [ls_shutdown, hs]
  · intro sid hs
    have htr : (ls_shutdown st child).2 =
        SupAction.incrementRunId :: stop_process sid child := by
      simp [ls_shutdown, hs]
    refine ⟨by rw [htr, stop_process], ?_, rfl, ?_, rfl, ?_, ?_⟩
    · rw [htr, stop_process]
      have h1 := stopAttempts_pollCount sid child LS_STOP_WAIT_ATTEMPTS 0
      cases hsnd : (stopAttempts sid child LS_STOP_WAIT_ATTEMPTS 0).2 <;>
        simp [pollCount, pollCount_append, hsnd] <;> omega
    · intro ms hms
      rw [htr, stop_process] at hms
      simp only [List.mem_cons, List.mem_append] at hms
      rcases hms with h | h | h | h | h
      · exact SupAction.noConfusion h
      · exact SupAction.noConfusion h
      · exact SupAction.noConfusion h
      · rcases stopAttempts_mem_shape sid child LS_STOP_WAIT_ATTEMPTS 0 _ h with
          h' | h' | h' | h'
        · exact SupAction.noConfusion h'
        · exact SupAction.noConfusion h'
        · exact SupAction.noConfusion h'
        · injection h' with h''
      · cases hsnd : (stopAttempts sid child LS_STOP_WAIT_ATTEMPTS 0).2 <;>
          rw [hsnd] at h <;> simp at h
    · intro hsnd
      rw [htr, stop_process, hsnd]
      simp
    · intro hsnd
      rw [htr, stop_process, hsnd]
      intro hmem
      simp only [List.mem_cons, List.mem_append] at hmem
      rcases hmem with h | h | h | h | h
      · exact SupAction.noConfusion h
      · exact SupAction.noConfusion h
      · exact SupAction.noConfusion h
      · rcases stopAttempts_mem_shape sid child LS_STOP_WAIT_ATTEMPTS 0 _ h with
          h' | h' | h' | h' <;> exact SupAction.noConfusion h'
      · simp at h

/-- Claim C8 witness: shutting down an installed session 3 whose child exits
at the first poll leaves no session, bumps the counter, polls at most the
bounded number of times and performs no kill. -/
theorem C8_shutdown_sequence_witness :
    (ls_shutdown ⟨some 3, 5⟩ (fun _ => TryWaitRes.exited)).1.session = none ∧
    (ls_shutdown ⟨some 3, 5⟩ (fun _ => TryWaitRes.exited)).1.runId = 5 + 1 ∧
    pollCount 3 (ls_shutdown ⟨some 3, 5⟩ (fun _ => TryWaitRes.exited)).2 ≤
      LS_STOP_WAIT_ATTEMPTS ∧
    SupAction.kill 3 ∉ (ls_shutdown ⟨some 3, 5⟩ (fun _ => TryWaitRes.exited)).2 := by
  have h := C8_shutdown_sequence ⟨some 3, 5⟩ (fun _ => TryWaitRes.exited)
  have h4 := h.2.2.2 3 rfl
  exact ⟨h.1, h.2.1, h4.2.1, h4.2.2.2.2.2.2 (by decide)⟩

/-- Claim C9 counterexample: the claim's four OS choices times two
architectures each mapping to a distinct bundled subdirectory name fails —
on windows the two architectures map to the same name (and the non-mac,
non-windows systems share the linux names). -/
theorem C9_counterexample :
    config_dir_name TargetOs.windows TargetArch.x86_64 =
        config_dir_name TargetOs.windows TargetArch.aarch64 ∧
      (TargetOs.windows, TargetArch.x86_64) ≠ (TargetOs.windows, TargetArch.aarch64) := by
  exact ⟨rfl, by decide⟩

/-- Claim C9 (amended): the bundled configuration subdirectory is a pure
function of target OS and architecture, but its image has exactly five
distinct names, not eight: windows ignores the architecture, and every OS
other than windows and macos shares the linux pair; two (OS, arch) pairs
collide exactly when both are windows, or both are macos with equal
architecture, or both are neither with equal architecture. -/
theorem C9_config_dir_amended :
    (∀ (os : TargetOs) (arch : TargetArch), config_dir_name os arch ∈
      [("config_win").toList, ("config_mac").toList, ("config_mac_arm").toList,
        ("config_linux").toList, ("config_linux_arm").toList]) ∧
    ([("config_win").toList, ("config_mac").toList, ("config_mac_arm").toList,
      ("config_linux").toList, ("config_linux_arm").toList]).Nodup ∧
    (∀ a a2 : TargetArch, config_dir_name TargetOs.windows a =
      config_dir_name TargetOs.windows a2) ∧
    (∀ (os os2 : TargetOs) (arch arch2 : TargetArch),
      config_dir_name os arch = config_dir_name os2 arch2 ↔
        ((os = TargetOs.windows ∧ os2 = TargetOs.windows) ∨
          (os = TargetOs.macos ∧ os2 = TargetOs.macos ∧ arch = arch2) ∨
          (os ≠ TargetOs.windows ∧ os ≠ TargetOs.macos ∧
            os2 ≠ TargetOs.windows ∧ os2 ≠ TargetOs.macos ∧ arch = arch2))) := by
  refine ⟨?_, by decide, ?_, ?_⟩
  · intro os arch
    cases os <;> cases arch <;> simp [config_dir_name]
  · intro a a2
    cases a <;> cases a2 <;> rfl
  · intro os os2 arch arch2
    cases os <;> cases os2 <;> cases arch <;> cases arch2 <;>
      simp [config_dir_name] <;> decide

theorem map_bs_id (p : List Char) (h : '\\' ∉ p) :
    p.map (fun c => if c = '\\' then '/' else c) = p := by
  induction p with
  | nil => rfl
  | cons c t ih =>
    have hc : c ≠ '\\' := fun he => h (he ▸ List.mem_cons_self c t)
    have ht : '\\' ∉ t := fun hm => h (List.mem_cons_of_mem c hm)
    simp [hc, ih ht]

theorem hexVal_hexUpper {k : Nat} (h : k < 16) : hexVal (hexUpper k) = some k := by
  interval_cases k <;> decide

theorem percent_decode_cons {c : Char} (l : List Char) (h : c ≠ '%') :
    percent_decode (c :: l) = c :: percent_decode l := by
  rw [percent_decode.eq_def]
  cases l with
  | nil => simp [h]
  | cons c2 l2 =>
    cases l2 with
    | nil => simp [h]
    | cons c3 l3 => simp [h]

theorem percent_decode_encode (p : List Char) (h : ∀ c ∈ p, c.toNat < 128) :
    percent_decode (percent_encode p) = p := by
  induction p with
  | nil => rfl
  | cons c t ih =>
    have hc : c.toNat < 128 := h c (List.mem_cons_self c t)
    have iht := ih (fun x hx => h x (List.mem_cons_of_mem c hx))
    rw [percent_encode]
    by_cases hkeep : (is_unreserved c.toNat = true) ∨ c = '/' ∨ c = ':'
    · have he : (if is_unreserved c.toNat ∨ c = '/' ∨ c = ':' then [c]
          else ['%', hexUpper (c.toNat / 16), hexUpper (c.toNat % 16)]) = [c] := by
        simp [hkeep]
      rw [he]
      have hne : c ≠ '%' := by
        intro heq
        subst heq
        rcases hkeep with h' | h' | h' <;> revert h' <;> decide
      rw [List.singleton_append, percent_decode_cons _ hne, iht]
    · have he : (if is_unreserved c.toNat ∨ c = '/' ∨ c = ':' then [c]
          else ['%', hexUpper (c.toNat / 16), hexUpper (c.toNat % 16)]) =
          ['%', hexUpper (c.toNat / 16), hexUpper (c.toNat % 16)] := by
        simp [hkeep]
      rw [he]
      have hhi : hexVal (hexUpper (c.toNat / 16)) = some (c.toNat / 16) :=
        hexVal_hexUpper (by omega)
      have hlo : hexVal (hexUpper (c.toNat % 16)) = some (c.toNat % 16) :=
        hexVal_hexUpper (Nat.mod_lt _ (by omega))
      have hchar : Char.ofNat (c.toNat / 16 * 16 + c.toNat % 16) = c := by
        have heq : c.toNat / 16 * 16 + c.toNat % 16 = c.toNat := by omega
        rw [heq]
        exact Char.ofNat_toNat c
      rw [percent_decode.eq_def]
      simp [hhi, hlo, hchar, iht]

theorem trimStartList_strip (fuel : Nat) {pat l rest : List Char}
    (hpat : pat ≠ []) (hs : stripPre pat l = some rest) :
    trimStartList (fuel + 1) pat l = trimStartList fuel pat rest := by
  simp [trimStartList, hs, hpat]

theorem trimStartList_stuck (fuel : Nat) {pat l : List Char}
    (hs : stripPre pat l = none) : trimStartList fuel pat l = l := by
  cases fuel with
  | zero => rfl
  | succ fuel => simp [trimStartList, hs]

theorem path_to_uri_posix (p : List Char)
    (hhead : p.get? 0 = some '/')
    (hsecond : p.get? 1 ≠ some '/')
    (hcolon1 : p.get? 1 ≠ some ':')
    (hbs : '\\' ∉ p) :
    path_to_uri p = fileScheme ++ percent_encode p := by
  obtain ⟨p', rfl⟩ : ∃ p', p = '/' :: p' := by
    cases p with
    | nil => simp at hhead
    | cons c r =>
      simp only [List.get?] at hhead
      exact ⟨r, by rw [Option.some_inj.mp hhead]⟩
  rw [path_to_uri, map_bs_id _ hbs]
  have h2 : ¬(2 ≤ ('/' :: p').length ∧ ('/' :: p').get? 1 = some ':') := by
    rintro ⟨-, hc⟩
    exact hcolon1 hc
  rw [if_neg h2]
  have h3 : startsWithL ('/' :: p') ['/', '/'] = false := by
    rw [startsWithL]
    cases p' with
    | nil => rfl
    | cons c2 r2 =>
      have hc2 : c2 ≠ '/' := by
        intro he
        exact hsecond (by simp [he])
      have hne : ¬('/' = c2) := fun he => hc2 (Eq.symm he)
      simp [stripPre, hne]
  rw [if_neg (by simp [h3])]

theorem uri_to_path_encode (p : List Char)
    (hascii : ∀ c ∈ p, c.toNat < 128)
    (hhead : p.get? 0 = some '/')
    (hcolon2 : p.get? 2 ≠ some ':') :
    uri_to_path (fileScheme ++ percent_encode p) = p := by
  obtain ⟨p', rfl⟩ : ∃ p', p = '/' :: p' := by
    cases p with
    | nil => simp at hhead
    | cons c r =>
      simp only [List.get?] at hhead
      exact ⟨r, by rw [Option.some_inj.mp hhead]⟩
  have henc : percent_encode ('/' :: p') = '/' :: percent_encode p' := by
    rw [percent_encode]
    simp
  have hstrip1 : stripPre fileScheme (fileScheme ++ percent_encode ('/' :: p')) =
      some (percent_encode ('/' :: p')) := stripPre_self_append _ _
  have hstrip2 : stripPre fileScheme (percent_encode ('/' :: p')) = none := by
    rw [henc, show fileScheme = 'f' :: ("ile://").toList from by decide]
    simp [stripPre]
  have hlen : (fileScheme ++ percent_encode ('/' :: p')).length + 1 =
      ((fileScheme ++ percent_encode ('/' :: p')).length) + 1 := rfl
  rw [uri_to_path]
  rw [trimStartList_strip _ (by decide) hstrip1, trimStartList_stuck _ hstrip2]
  rw [percent_decode_encode _ hascii]
  have hcond : ¬(('/' :: p').get? 0 = some '/' ∧ 3 < ('/' :: p').length ∧
      ('/' :: p').get? 2 = some ':') := by
    rintro ⟨-, -, hc⟩
    exact hcolon2 hc
  rw [if_neg hcond]

/-- Claim C10 counterexample: the path "/:x" satisfies every condition of
the claim (ASCII, a single leading slash, no backslash, third character not
a colon), yet it does not round-trip: its second character is a colon, so
`path_to_uri` takes the Windows-drive branch and prepends slashes that
`uri_to_path` does not remove. -/
theorem C10_counterexample :
    (("/:x").toList.get? 0 = some '/' ∧ ("/:x").toList.get? 1 ≠ some '/' ∧
      '\\' ∉ ("/:x").toList ∧ ("/:x").toList.get? 2 ≠ some ':' ∧
      ∀ c ∈ ("/:x").toList, c.toNat < 128) ∧
    uri_to_path (path_to_uri (("/:x").toList)) ≠ ("/:x").toList := by
  constructor
  · refine ⟨rfl, by decide, by decide, by decide, by decide⟩
  · decide

/-- Claim C10 (amended): for an ASCII path whose string form begins with a
single slash, whose second and third characters are not colons and which
contains no backslash, `uri_to_path (path_to_uri p) = p` — the extra
second-character condition excludes paths such as "/:x", where the
Windows-drive slash-prepending branch of `path_to_uri` fires. -/
theorem C10_uri_roundtrip (p : List Char)
    (hascii : ∀ c ∈ p, c.toNat < 128)
    (hhead : p.get? 0 = some '/')
    (hsecond : p.get? 1 ≠ some '/')
    (hcolon1 : p.get? 1 ≠ some ':')
    (hcolon2 : p.get? 2 ≠ some ':')
    (hbs : '\\' ∉ p) :
    uri_to_path (path_to_uri p) = p := by
  rw [path_to_uri_posix p hhead hsecond hcolon1 hbs]
  exact uri_to_path_encode p hascii hhead hcolon2

/-- Claim C10 witness: a POSIX path with a space (percent-encoded on the
way out) round-trips. -/
theorem C10_uri_roundtrip_witness :
    uri_to_path (path_to_uri (("/home/u ser/App.java").toList)) =
      ("/home/u ser/App.java").toList :=
  C10_uri_roundtrip (("/home/u ser/App.java").toList) (by decide) rfl
    (by decide) (by decide) (by decide) (by decide)
